import Mathlib

set_option maxHeartbeats 1000000

/-!
Verification development for the graph core of the `tcc-r3dp` repository.

The repository's graph component (`src/common/graph.hpp`, `src/common/graph.cpp`)
is a simple undirected graph over adjacency lists, with construction from an
edge-list text file and connected-component analysis, plus an unrelated
per-worker random-number utility (`src/common/random.hpp`).

`graph.cpp` contains only the three constructors; the remaining member
functions are declared in `graph.hpp` but their bodies are not part of the
sources, so those operations are modelled here from the specification's
description of them (each such definition is marked `Modelled from the
spec:`).  The file-ingestion constructor and the RNG are translated directly
from the sources.
-/

namespace R3DP

/-- Error conditions raised by the `Graph` API: `std::out_of_range` and
`std::invalid_argument`, as documented in `graph.hpp`. -/
inductive GraphError where
  | outOfRange
  | invalidArgument
deriving DecidableEq

/-- Source `class Graph` (graph.hpp lines 17-129): field `num_vertices_` is the
number of vertices, `num_edges_` the number of undirected edges (each counted
once), and `adj_list_` the adjacency lists, one list of neighbour ids per
vertex.  C++ `size_t` values are embedded as `Nat`; vertex counts and ids
never approach `2^64` in any reachable computation, and no arithmetic on them
overflows, so no wraparound modelling is needed. -/
structure Graph where
  num_vertices : Nat
  num_edges : Nat
  adj_list : List (List Nat)
deriving DecidableEq

/-- Constructor `Graph::Graph()` (graph.cpp line 14): the empty graph. -/
def Graph.empty : Graph := ⟨0, 0, []⟩

/-- Constructor `Graph::Graph(size_t n)` (graph.cpp line 16): `n` isolated vertices,
`adj_list_.resize(n)` makes `n` empty neighbour lists. -/
def Graph.mkSized (n : Nat) : Graph := ⟨n, 0, List.replicate n []⟩

/-- Modelled from the spec: the body of `Graph::has_edge` is absent from the
sources (declared `noexcept` in graph.hpp line 67).  Per spec section 4.2 it is a
pure query and invalid inputs simply return `false`; `getD` returns `[]` for
an out-of-range vertex, which yields `false`. -/
def Graph.has_edge (g : Graph) (u v : Nat) : Bool :=
  decide (v ∈ g.adj_list.getD u [])

/-- Modelled from the spec: the body of `Graph::add_edge` is absent from the
sources (declared in graph.hpp lines 48-54).  Per spec section 4.2: out-of-range if
`u` or `v` is at least `vertex_count`; invalid-argument if `u == v`; no-op if the
edge already exists; otherwise insert `v` into `adjacency[u]`, insert `u`
into `adjacency[v]` and increment `edge_count` by one.  Insertion appends at
the end of the neighbour list (`push_back`). -/
def Graph.add_edge (g : Graph) (u v : Nat) : Option GraphError × Graph :=
  if g.num_vertices ≤ u ∨ g.num_vertices ≤ v then (some .outOfRange, g)
  else if u = v then (some .invalidArgument, g)
  else if g.has_edge u v then (none, g)
  else
    let a1 := g.adj_list.set u (g.adj_list.getD u [] ++ [v])
    let a2 := a1.set v (a1.getD v [] ++ [u])
    (none, ⟨g.num_vertices, g.num_edges + 1, a2⟩)

/-- Modelled from the spec: the body of `Graph::remove_edge` is absent from
the sources (declared in graph.hpp lines 56-61).  Per spec section 4.2: out-of-range
if either endpoint is invalid; no-op if the edge does not exist; otherwise
remove both symmetric entries and decrement `edge_count` by one. -/
def Graph.remove_edge (g : Graph) (u v : Nat) : Option GraphError × Graph :=
  if g.num_vertices ≤ u ∨ g.num_vertices ≤ v then (some .outOfRange, g)
  else if g.has_edge u v then
    let a1 := g.adj_list.set u ((g.adj_list.getD u []).erase v)
    let a2 := a1.set v ((a1.getD v []).erase u)
    (none, ⟨g.num_vertices, g.num_edges - 1, a2⟩)
  else (none, g)

/-- Modelled from the spec: the body of `Graph::add_vertex` is absent from
the sources (graph.hpp line 71).  Per spec section 4.2 it appends one new isolated
vertex whose id is the previous `vertex_count`. -/
def Graph.add_vertex (g : Graph) : Graph :=
  ⟨g.num_vertices + 1, g.num_edges, g.adj_list ++ [[]]⟩

/-- Modelled from the spec: the body of `Graph::degree` is absent from the
sources (graph.hpp line 77).  Out-of-range for an invalid vertex, otherwise
the neighbour count.  It is `const` in C++, hence a pure function here. -/
def Graph.degree (g : Graph) (v : Nat) : Except GraphError Nat :=
  if g.num_vertices ≤ v then .error .outOfRange
  else .ok (g.adj_list.getD v []).length

/-- Modelled from the spec: the body of `Graph::neighbors` is absent from the
sources (graph.hpp line 83).  Out-of-range for an invalid vertex, otherwise a
read-only view of the neighbour list.  It is `const` in C++, hence a pure
function here. -/
def Graph.neighbors (g : Graph) (v : Nat) : Except GraphError (List Nat) :=
  if g.num_vertices ≤ v then .error .outOfRange
  else .ok (g.adj_list.getD v [])

/-- Modelled from the spec: the body of `Graph::reserve_neighbors` is absent
from the sources (graph.hpp line 112).  Per spec section 4.2 it is a pure
performance hint: out-of-range for an invalid vertex, otherwise no observable
effect.  The capacity hint has no observable counterpart, so the state is
returned unchanged. -/
def Graph.reserve_neighbors (g : Graph) (v _capacity : Nat) : Option GraphError × Graph :=
  if g.num_vertices ≤ v then (some .outOfRange, g) else (none, g)

/-- Modelled from the spec: the body of `Graph::clear` is absent from the
sources (graph.hpp line 106).  Per spec section 4.2 it resets to the empty graph. -/
def Graph.clear (_g : Graph) : Graph := Graph.empty

/-! ### Connectivity (modelled from the spec)

The bodies of `Graph::get_connected_component` and
`Graph::get_all_connected_components` are absent from the sources
(graph.hpp lines 99-103).  Per spec section 4.3 the former performs a traversal from
`start` following adjacency and returns the sorted list of reached vertices;
the latter repeatedly picks the smallest unvisited vertex, runs that
traversal, marks its result visited, and collects the components. -/

/-- One expansion: the neighbour lists of every vertex in `s`, concatenated. -/
def neighborsUnion (g : Graph) : List Nat → List Nat
  | [] => []
  | u :: us => g.adj_list.getD u [] ++ neighborsUnion g us

/-- One traversal round: keep the frontier and add every neighbour of it. -/
def stepR (g : Graph) (s : List Nat) : List Nat :=
  s ++ neighborsUnion g s

/-- Iterates `k` traversal rounds from the singleton frontier; for `k = num_vertices` this saturates to
the set of vertices reachable from `i` (proved below). -/
def reachL (g : Graph) (i : Nat) : Nat → List Nat
  | 0 => [i]
  | k + 1 => stepR g (reachL g i k)

/-- Modelled from the spec: the sorted list of vertices reached from `i`
(spec section 4.3, "returns the sorted sequence of all reached vertex ids").
Filtering `range` both restricts to genuine vertex ids and sorts. -/
def componentOf (g : Graph) (i : Nat) : List Nat :=
  (List.range g.num_vertices).filter (fun v => decide (v ∈ reachL g i g.num_vertices))

/-- Modelled from the spec: `Graph::get_connected_component` (graph.hpp line
99); out-of-range if `start` is invalid, otherwise the sorted component. -/
def Graph.get_connected_component (g : Graph) (start : Nat) : Except GraphError (List Nat) :=
  if g.num_vertices ≤ start then .error .outOfRange
  else .ok (componentOf g start)

/-- Worklist of seed candidates in ascending order together with the visited
set; an unvisited candidate seeds a traversal whose result is collected and
marked visited. -/
def collectComponents (g : Graph) : List Nat → List Nat → List (List Nat)
  | [], _ => []
  | i :: rest, visited =>
    if i ∈ visited then collectComponents g rest visited
    else componentOf g i :: collectComponents g rest (visited ++ componentOf g i)

/-- Modelled from the spec: `Graph::get_all_connected_components` (graph.hpp
line 103); spec section 4.3, seeds are picked in ascending id order. -/
def Graph.get_all_connected_components (g : Graph) : List (List Nat) :=
  collectComponents g (List.range g.num_vertices) []

/-! ### Structural invariants (spec section 3) -/

/-- The structural invariants of spec section 3: adjacency length matches the vertex
count; no self-loops; symmetry; no duplicates in a neighbour list; the edge
count is half the total neighbour-list length (stated multiplicatively); and
every stored vertex id is below `num_vertices`.  Quantifiers are bounded so
the predicate is decidable on concrete graphs. -/
def Graph.WF (g : Graph) : Prop :=
  g.adj_list.length = g.num_vertices ∧
  (∀ i < g.num_vertices, i ∉ g.adj_list.getD i []) ∧
  (∀ u < g.num_vertices, ∀ v < g.num_vertices,
     v ∈ g.adj_list.getD u [] → u ∈ g.adj_list.getD v []) ∧
  (∀ u < g.num_vertices, (g.adj_list.getD u []).Nodup) ∧
  2 * g.num_edges = (g.adj_list.map List.length).sum ∧
  (∀ u < g.num_vertices, ∀ v ∈ g.adj_list.getD u [], v < g.num_vertices)

instance (g : Graph) : Decidable g.WF := by
  unfold Graph.WF
  infer_instance

/-! ### File ingestion (graph.cpp lines 18-104)

The file is embedded as its list of lines (what successive `std::getline`
calls deliver); resource existence and I/O failures (graph.cpp lines 22-29
and 67-70) are outside the embedding.  Everything from line 31 on is
translated directly. -/

/-- The character set `" \t\r\n"` used by `find_first_not_of` /
`find_last_not_of` (graph.cpp lines 42-46). -/
def isTrimChar (c : Char) : Bool :=
  c = ' ' || c = '\t' || c = '\r' || c = '\n'

/-- Whitespace skipped by formatted stream extraction (`std::isspace` in the
default locale): space, tab, newline, vertical tab, form feed, carriage
return. -/
def isStreamSpace (c : Char) : Bool :=
  c = ' ' || c = '\t' || c = '\n' || c = '\x0b' || c = '\x0c' || c = '\r'

/-- Trimming of leading and trailing `" \t\r\n"` (graph.cpp lines 42-47). -/
def trimLine (s : List Char) : List Char :=
  ((s.dropWhile isTrimChar).reverse.dropWhile isTrimChar).reverse

/-- Numeric value of a digit string. -/
def digitsVal (ds : List Char) : Nat :=
  ds.foldl (fun a c => a * 10 + (c.toNat - '0'.toNat)) 0

/-- Digit-run part of `operator>>` into a `size_t`: a nonempty maximal
decimal digit run whose value fits in 64 bits; with a minus sign the value is
negated modulo `2^64` (C++ `num_get` / `strtoull` semantics).  Returns the
value and the unconsumed rest, or `none` on failure (which sets `failbit`). -/
def readDigits (s : List Char) (neg : Bool) : Option (Nat × List Char) :=
  let ds := s.takeWhile Char.isDigit
  let rest := s.dropWhile Char.isDigit
  if ds.isEmpty then none
  else if 2 ^ 64 ≤ digitsVal ds then none
  else some (if neg then (2 ^ 64 - digitsVal ds) % 2 ^ 64 else digitsVal ds, rest)

/-- Extraction `iss >> x` for `size_t x` (graph.cpp line 58): skip whitespace, read an
optional sign and a decimal digit run. -/
def readULL (s : List Char) : Option (Nat × List Char) :=
  match s.dropWhile isStreamSpace with
  | '+' :: rest => readDigits rest false
  | '-' :: rest => readDigits rest true
  | other => readDigits other false

/-- Extraction `iss >> u_orig >> v_orig` (graph.cpp line 58): two successive unsigned
extractions; anything after the second integer is left unread and ignored. -/
def parseEdge (s : List Char) : Option (Nat × Nat) :=
  match readULL s with
  | none => none
  | some (u, rest) =>
    match readULL rest with
    | none => none
    | some (v, _) => some (u, v)

/-- What the read loop does with one line. -/
inductive LineKind where
  | skip
  | edge (u v : Nat)
  | bad
deriving DecidableEq

/-- Classification of one line (graph.cpp lines 42-60): all-whitespace lines
and lines whose first character after trimming is `#` are skipped; otherwise
the line must yield two unsigned integers. -/
def classifyLine (s : String) : LineKind :=
  let t := trimLine s.toList
  if t.isEmpty then .skip
  else if t.headD ' ' = '#' then .skip
  else
    match parseEdge t with
    | some (u, v) => .edge u v
    | none => .bad

/-- Failures of the ingestion constructor: the format error thrown at
graph.cpp line 59 (carrying the 1-based line number), or an exception
propagating out of the `add_edge` call at line 102 (shown below to be
unreachable). -/
inductive IngestError where
  | formatError (lineNumber : Nat)
  | graphError (e : GraphError)
deriving DecidableEq

/-- The read loop (graph.cpp lines 38-65): `k` lines have already been
consumed, so the current line's 1-based number is `k + 1`.  Collects the raw
`(u, v)` pairs in file order or fails at the first malformed line. -/
def collectRaw : List String → Nat → Except IngestError (List (Nat × Nat))
  | [], _ => .ok []
  | l :: ls, k =>
    match classifyLine l with
    | .skip => collectRaw ls (k + 1)
    | .bad => .error (.formatError (k + 1))
    | .edge u v =>
      match collectRaw ls (k + 1) with
      | .error e => .error e
      | .ok raw => .ok ((u, v) :: raw)

/-- The `vertices` vector (graph.cpp lines 63-64): both endpoints of every
raw pair, in file order. -/
def rawEndpoints (raw : List (Nat × Nat)) : List Nat :=
  match raw with
  | [] => []
  | p :: ps => p.1 :: p.2 :: rawEndpoints ps

/-- Insertion sort; extensionally identical to `std::sort` (graph.cpp line
79) on a list of naturals, where the sorted permutation is unique. -/
def insertSorted (x : Nat) : List Nat → List Nat
  | [] => [x]
  | y :: ys => if x ≤ y then x :: y :: ys else y :: insertSorted x ys

/-- Full sort, `std::sort(vertices.begin(), vertices.end())`. -/
def sortNat (l : List Nat) : List Nat :=
  l.foldr insertSorted []

/-- Deduplication `std::unique` followed by `erase` (graph.cpp line 80): drop adjacent
duplicates. -/
def uniqueAdj : List Nat → List Nat
  | [] => []
  | [x] => [x]
  | x :: y :: rest =>
    if x = y then uniqueAdj (y :: rest) else x :: uniqueAdj (y :: rest)

/-- The sorted, deduplicated label set of graph.cpp lines 79-80. -/
def labelsOf (raw : List (Nat × Nat)) : List Nat :=
  uniqueAdj (sortNat (rawEndpoints raw))

/-- The insertion loop (graph.cpp lines 92-103).  `map_old_to_new` maps each
label to its position in the sorted distinct label list (lines 85-90), which
is `labels.indexOf` since the list has no duplicates; self-loops after
remapping are skipped; duplicates are absorbed by `add_edge` itself.  An
exception from `add_edge` would propagate (it never fires; proved below). -/
def insertAll (labels : List Nat) : List (Nat × Nat) → Graph → Except IngestError Graph
  | [], g => .ok g
  | p :: ps, g =>
    let u := labels.indexOf p.1
    let v := labels.indexOf p.2
    if u = v then insertAll labels ps g
    else
      match g.add_edge u v with
      | (some e, _) => .error (.graphError e)
      | (none, g') => insertAll labels ps g'

/-- Renumbering and edge insertion (graph.cpp lines 72-103): an empty raw
edge list yields the empty graph; otherwise the adjacency structure is sized
to the number of distinct labels (`assign(num_vertices_, {})`, which is
`mkSized`) and every raw pair is remapped and inserted. -/
def Graph.fromRaw (raw : List (Nat × Nat)) : Except IngestError Graph :=
  match raw with
  | [] => .ok Graph.empty
  | _ :: _ =>
    let labels := labelsOf raw
    insertAll labels raw (Graph.mkSized labels.length)

/-- Constructor `Graph::Graph(const std::string&)` (graph.cpp lines 18-104) on the list
of lines of an existing, readable file. -/
def Graph.fromLines (lines : List String) : Except IngestError Graph :=
  match collectRaw lines 0 with
  | .error e => .error e
  | .ok raw => Graph.fromRaw raw

/-! ### The RNG utility (src/common/random.hpp)

`class RNG` keeps one `std::mt19937_64` per logical worker.  The Mersenne
Twister engine is a C++ standard-library component; its state, seeding
recurrence and output function are embedded below exactly as the standard
defines them for `std::mt19937_64` (word size 64, state size 312, shift 156,
the usual tempering constants), with words as `Nat` reduced modulo `2^64`. -/

/-- 64-bit truncation. -/
def u64 (x : Nat) : Nat := x % 2 ^ 64

/-- State of `std::mt19937_64`: 312 words and the next-output index `mti`. -/
structure MT where
  state : Array Nat
  index : Nat
deriving DecidableEq

/-- The seeding recurrence `x_i = f * (x_{i-1} xor (x_{i-1} >> 62)) + i`
modulo `2^64` with `f = 6364136223846793005`. -/
def mtInitNext (prev i : Nat) : Nat :=
  u64 (6364136223846793005 * (prev ^^^ (prev >>> 62)) + i)

/-- The 312-word state produced by seeding with `seed` (what both
`mt19937_64(seed)` and `.seed(seed)` install). -/
def mtSeedArray (seed : Nat) : Array Nat :=
  (List.range 312).foldl
    (fun a i => if i = 0 then a.push (u64 seed) else a.push (mtInitNext (a.getD (i - 1) 0) i))
    #[]

/-- A freshly seeded engine; `mti = n` so the first draw twists. -/
def mtInit (seed : Nat) : MT := ⟨mtSeedArray seed, 312⟩

/-- Member `seed(s)` of `std::mersenne_twister_engine`: per the C++ standard
it installs the same state as constructing the engine from `s`. -/
def MT.seedWith (_m : MT) (s : Nat) : MT := mtInit s

/-- The twist transformation over the whole state array. -/
def mtTwist (s : Array Nat) : Array Nat :=
  (List.range 312).foldl
    (fun a i =>
      let x := (a.getD i 0 &&& 0xFFFFFFFF80000000) + (a.getD ((i + 1) % 312) 0 &&& 0x7FFFFFFF)
      let xA := if x % 2 = 1 then (x >>> 1) ^^^ 0xB5026F5AA96619E9 else x >>> 1
      a.setD i ((a.getD ((i + 156) % 312) 0) ^^^ xA))
    s

/-- The tempering of one raw state word into an output. -/
def mtTemper (y : Nat) : Nat :=
  let y1 := y ^^^ ((y >>> 29) &&& 0x5555555555555555)
  let y2 := y1 ^^^ ((y1 <<< 17) &&& 0x71D67FFFEDA60000)
  let y3 := y2 ^^^ ((y2 <<< 37) &&& 0xFFF7EEE000000000)
  y3 ^^^ (y3 >>> 43)

/-- Output `operator()`: twist when the state is exhausted, then temper the word at
`mti` and advance. -/
def mtNext (m : MT) : Nat × MT :=
  if 312 ≤ m.index then
    let s := mtTwist m.state
    (mtTemper (s.getD 0 0), ⟨s, 1⟩)
  else
    (mtTemper (m.state.getD m.index 0), ⟨m.state, m.index + 1⟩)

/-- The `k` successive outputs of an engine. -/
def drawSeq (m : MT) : Nat → List Nat
  | 0 => []
  | k + 1 =>
    let (x, m') := mtNext m
    x :: drawSeq m' k

/-- The engine left after `k` outputs. -/
def mtAfter (m : MT) : Nat → MT
  | 0 => m
  | k + 1 => mtAfter (mtNext m).2 k

/-- Source `class RNG` (random.hpp lines 17-164): per-worker engines, the master
seed and the configured thread count. -/
structure RNG where
  generators : List MT
  master_seed : Nat
  num_threads : Nat
deriving DecidableEq

/-- Member `RNG::init_generators` (random.hpp lines 29-36): a seeding engine is
constructed from the master seed and worker `i` receives an engine
constructed from its `i`-th output. -/
def initGenerators (threads seed : Nat) : List MT :=
  (drawSeq (mtInit seed) threads).map mtInit

/-- The seeded constructor `RNG(int threads, uint64_t seed)` (random.hpp line
56). -/
def RNG.mkSeeded (threads seed : Nat) : RNG :=
  ⟨initGenerators threads seed, u64 seed, threads⟩

/-- Member `RNG::reseed` (random.hpp lines 65-72): a fresh seeding engine is
constructed from the new seed and worker `i`'s engine is re-seeded with its
`i`-th output via the member `seed`, which installs the constructed-from-seed
state (`MT.seedWith`). -/
def RNG.reseed (r : RNG) (seed : Nat) : RNG :=
  ⟨(List.range r.num_threads).map
      (fun i => (r.generators.getD i (mtInit 0)).seedWith
        ((drawSeq (mtInit seed) r.num_threads).getD i 0)),
    u64 seed, r.num_threads⟩

/-! ### Proof-side definitions -/

/-- The one-step adjacency relation followed by the traversal. -/
def adjRel (g : Graph) (a b : Nat) : Prop := b ∈ g.adj_list.getD a []

/-- The visited-set of the traversal after `k` rounds, as a finite set. -/
def reachF (g : Graph) (i k : Nat) : Finset Nat := (reachL g i k).toFinset

/-- Membership test used to phrase "not yet visited" as a `filter`
predicate. -/
def notMem (V : List Nat) : Nat → Bool := fun a => decide (a ∉ V)

/-! ### List helper lemmas -/

theorem getD_set_self {α : Type} (l : List α) (i : Nat) (x d : α) (h : i < l.length) :
    (l.set i x).getD i d = x := by
  simp [List.getD_eq_getElem?_getD, List.getElem?_set, h]

theorem getD_set_ne {α : Type} (l : List α) {i j : Nat} (x : α) (d : α) (h : i ≠ j) :
    (l.set i x).getD j d = l.getD j d := by
  simp [List.getD_eq_getElem?_getD, List.getElem?_set, h]

theorem set_getD_self {α : Type} (l : List α) (i : Nat) (d : α) (h : i < l.length) :
    l.set i (l.getD i d) = l := by
  apply List.ext_getElem?
  intro j
  rw [List.getElem?_set]
  by_cases hij : i = j
  · subst hij
    simp [List.getD_eq_getElem?_getD, h, List.getElem?_eq_getElem h]
  · simp [hij]

theorem sum_map_length_set (l : List (List Nat)) (i : Nat) (x : List Nat) (h : i < l.length) :
    ((l.set i x).map List.length).sum + (l.getD i []).length
      = (l.map List.length).sum + x.length := by
  induction l generalizing i with
  | nil => simp at h
  | cons a as ih =>
    cases i with
    | zero => simp [List.set]; omega
    | succ j =>
      have hj : j < as.length := by simpa using h
      have := ih j hj
      simp only [List.set, List.map_cons, List.sum_cons, List.getD_cons_succ]
      omega

theorem getD_length_le_sum (l : List (List Nat)) (i : Nat) (h : i < l.length) :
    (l.getD i []).length ≤ (l.map List.length).sum := by
  induction l generalizing i with
  | nil => simp at h
  | cons a as ih =>
    cases i with
    | zero => simp
    | succ j =>
      have hj : j < as.length := by simpa using h
      have := ih j hj
      simp only [List.getD_cons_succ, List.map_cons, List.sum_cons]
      omega

/-! ### Basic properties of `has_edge`, `add_edge`, `remove_edge` -/

theorem has_edge_iff {g : Graph} {u v : Nat} :
    g.has_edge u v = true ↔ v ∈ g.adj_list.getD u [] := by
  simp [Graph.has_edge]

theorem has_edge_false_iff {g : Graph} {u v : Nat} :
    g.has_edge u v = false ↔ v ∉ g.adj_list.getD u [] := by
  simp [Graph.has_edge]

theorem add_edge_oob {g : Graph} {u v : Nat}
    (h : g.num_vertices ≤ u ∨ g.num_vertices ≤ v) :
    g.add_edge u v = (some .outOfRange, g) := by
  unfold Graph.add_edge
  rw [if_pos h]

theorem add_edge_loop {g : Graph} {u v : Nat} (hu : u < g.num_vertices)
    (hv : v < g.num_vertices) (he : u = v) :
    g.add_edge u v = (some .invalidArgument, g) := by
  unfold Graph.add_edge
  rw [if_neg (by omega), if_pos he]

theorem add_edge_dup {g : Graph} {u v : Nat} (hu : u < g.num_vertices)
    (hv : v < g.num_vertices) (hne : u ≠ v) (hd : g.has_edge u v = true) :
    g.add_edge u v = (none, g) := by
  unfold Graph.add_edge
  rw [if_neg (by omega), if_neg hne, if_pos hd]

theorem add_edge_new {g : Graph} {u v : Nat} (hu : u < g.num_vertices)
    (hv : v < g.num_vertices) (hne : u ≠ v) (hnd : g.has_edge u v = false) :
    g.add_edge u v = (none, ⟨g.num_vertices, g.num_edges + 1,
      (g.adj_list.set u (g.adj_list.getD u [] ++ [v])).set v
        (g.adj_list.getD v [] ++ [u])⟩) := by
  unfold Graph.add_edge
  rw [if_neg (by omega), if_neg hne, if_neg (by simp [hnd])]
  simp only [Prod.mk.injEq, true_and, Graph.mk.injEq, and_true]
  rw [getD_set_ne _ _ _ hne]

theorem remove_edge_oob {g : Graph} {u v : Nat}
    (h : g.num_vertices ≤ u ∨ g.num_vertices ≤ v) :
    g.remove_edge u v = (some .outOfRange, g) := by
  unfold Graph.remove_edge
  rw [if_pos h]

theorem remove_edge_absent {g : Graph} {u v : Nat} (hu : u < g.num_vertices)
    (hv : v < g.num_vertices) (hnd : g.has_edge u v = false) :
    g.remove_edge u v = (none, g) := by
  unfold Graph.remove_edge
  rw [if_neg (by omega), if_neg (by simp [hnd])]

theorem remove_edge_found {g : Graph} {u v : Nat} (hu : u < g.num_vertices)
    (hv : v < g.num_vertices) (hne : u ≠ v) (hd : g.has_edge u v = true) :
    g.remove_edge u v = (none, ⟨g.num_vertices, g.num_edges - 1,
      (g.adj_list.set u ((g.adj_list.getD u []).erase v)).set v
        ((g.adj_list.getD v []).erase u)⟩) := by
  unfold Graph.remove_edge
  rw [if_neg (by omega), if_pos hd]
  simp only [Prod.mk.injEq, true_and, Graph.mk.injEq, and_true]
  rw [getD_set_ne _ _ _ hne]

theorem add_edge_num_vertices (g : Graph) (u v : Nat) :
    ((g.add_edge u v).2).num_vertices = g.num_vertices := by
  unfold Graph.add_edge
  split
  · rfl
  · split
    · rfl
    · split
      · rfl
      · rfl

/-- Membership in the adjacency structure after a successful insertion. -/
theorem add_edge_new_mem {g : Graph} {u v : Nat} (hlen : g.adj_list.length = g.num_vertices)
    (hu : u < g.num_vertices) (hv : v < g.num_vertices) (hne : u ≠ v)
    (hnd : g.has_edge u v = false) (a b : Nat) :
    (b ∈ ((g.add_edge u v).2).adj_list.getD a [] ↔
      (b ∈ g.adj_list.getD a [] ∨ (a = u ∧ b = v) ∨ (a = v ∧ b = u))) := by
  rw [add_edge_new hu hv hne hnd]
  by_cases hau : a = u
  · subst hau
    rw [getD_set_ne _ _ _ (Ne.symm hne), getD_set_self _ _ _ _ (by omega)]
    simp [List.mem_append, hne]
  · by_cases hav : a = v
    · subst hav
      rw [getD_set_self _ _ _ _ (by simp; omega)]
      simp [List.mem_append, Ne.symm hne, hau]
    · rw [getD_set_ne _ _ _ (fun hh => hav hh.symm), getD_set_ne _ _ _ (fun hh => hau hh.symm)]
      simp [hau, hav]

/-- Packaging the six invariant components for a literal graph. -/
theorem WF_mk {n e : Nat} {A : List (List Nat)}
    (h1 : A.length = n)
    (h2 : ∀ i < n, i ∉ A.getD i [])
    (h3 : ∀ u < n, ∀ v < n, v ∈ A.getD u [] → u ∈ A.getD v [])
    (h4 : ∀ u < n, (A.getD u []).Nodup)
    (h5 : 2 * e = (A.map List.length).sum)
    (h6 : ∀ u < n, ∀ v ∈ A.getD u [], v < n) :
    (Graph.mk n e A).WF :=
  ⟨h1, h2, h3, h4, h5, h6⟩

theorem nodup_append_singleton {l : List Nat} {x : Nat} (h : l.Nodup) (hx : x ∉ l) :
    (l ++ [x]).Nodup := by
  simp [List.nodup_append, h, hx]

/-- Operation `add_edge` preserves the structural invariants (spec section 3), in every
branch. -/
theorem WF_add_edge {g : Graph} (h : g.WF) (u v : Nat) : ((g.add_edge u v).2).WF := by
  obtain ⟨hlen, hirr, hsym, hnd, hcnt, hrng⟩ := h
  by_cases hb : g.num_vertices ≤ u ∨ g.num_vertices ≤ v
  · rw [add_edge_oob hb]
    exact ⟨hlen, hirr, hsym, hnd, hcnt, hrng⟩
  have hu : u < g.num_vertices := by omega
  have hv : v < g.num_vertices := by omega
  by_cases he : u = v
  · rw [add_edge_loop hu hv he]
    exact ⟨hlen, hirr, hsym, hnd, hcnt, hrng⟩
  by_cases hd : g.has_edge u v
  · rw [add_edge_dup hu hv he hd]
    exact ⟨hlen, hirr, hsym, hnd, hcnt, hrng⟩
  have hd' : g.has_edge u v = false := by simpa using hd
  have hmem := add_edge_new_mem hlen hu hv he hd' (g := g)
  have hvnotu : v ∉ g.adj_list.getD u [] := has_edge_false_iff.mp hd'
  have hunotv : u ∉ g.adj_list.getD v [] := by
    intro hcon
    exact hvnotu (hsym v hv u hu hcon)
  rw [add_edge_new hu hv he hd'] at hmem ⊢
  refine WF_mk ?_ ?_ ?_ ?_ ?_ ?_
  · simpa using hlen
  · intro i hi hcon
    rcases (hmem i i).mp hcon with hin | ⟨h1, h2⟩ | ⟨h1, h2⟩
    · exact hirr i hi hin
    · exact he (h1.symm.trans h2)
    · exact he (h2.symm.trans h1)
  · intro a ha b hb hab
    rcases (hmem a b).mp hab with hin | ⟨h1, h2⟩ | ⟨h1, h2⟩
    · exact (hmem b a).mpr (Or.inl (hsym a ha b hb hin))
    · exact (hmem b a).mpr (Or.inr (Or.inr ⟨h2, h1⟩))
    · exact (hmem b a).mpr (Or.inr (Or.inl ⟨h2, h1⟩))
  · intro j hj
    by_cases hju : j = u
    · subst hju
      rw [getD_set_ne _ _ _ (Ne.symm he), getD_set_self _ _ _ _ (by omega)]
      exact nodup_append_singleton (hnd j hj) hvnotu
    · by_cases hjv : j = v
      · subst hjv
        rw [getD_set_self _ _ _ _ (by simp; omega)]
        exact nodup_append_singleton (hnd j hj) hunotv
      · rw [getD_set_ne _ _ _ (fun hh => hjv hh.symm), getD_set_ne _ _ _ (fun hh => hju hh.symm)]
        exact hnd j hj
  · have h1 := sum_map_length_set g.adj_list u (g.adj_list.getD u [] ++ [v]) (by omega)
    have h2 := sum_map_length_set (g.adj_list.set u (g.adj_list.getD u [] ++ [v])) v
      (g.adj_list.getD v [] ++ [u]) (by simp; omega)
    rw [getD_set_ne _ _ _ he] at h2
    simp only [List.length_append, List.length_singleton] at h1 h2
    omega
  · intro j hj b hbm
    rcases (hmem j b).mp hbm with hin | ⟨h1, h2⟩ | ⟨h1, h2⟩
    · exact hrng j hj b hin
    · omega
    · omega

theorem remove_edge_num_vertices (g : Graph) (u v : Nat) :
    ((g.remove_edge u v).2).num_vertices = g.num_vertices := by
  unfold Graph.remove_edge
  split
  · rfl
  · split
    · rfl
    · rfl

/-- Membership in the adjacency structure after a successful removal (the
nodup hypotheses make `erase` remove the unique occurrence). -/
theorem remove_edge_found_mem {g : Graph} {u v : Nat} (hlen : g.adj_list.length = g.num_vertices)
    (hu : u < g.num_vertices) (hv : v < g.num_vertices) (hne : u ≠ v)
    (hd : g.has_edge u v = true)
    (hndu : (g.adj_list.getD u []).Nodup) (hndv : (g.adj_list.getD v []).Nodup)
    (a b : Nat) :
    (b ∈ ((g.remove_edge u v).2).adj_list.getD a [] ↔
      (b ∈ g.adj_list.getD a [] ∧ ¬ (a = u ∧ b = v) ∧ ¬ (a = v ∧ b = u))) := by
  rw [remove_edge_found hu hv hne hd]
  by_cases hau : a = u
  · subst hau
    rw [getD_set_ne _ _ _ (Ne.symm hne), getD_set_self _ _ _ _ (by omega)]
    rw [hndu.mem_erase_iff]
    constructor
    · rintro ⟨h1, h2⟩
      exact ⟨h2, fun hh => h1 hh.2, fun hh => hne hh.1⟩
    · rintro ⟨h1, h2, _⟩
      exact ⟨fun hh => h2 ⟨rfl, hh⟩, h1⟩
  · by_cases hav : a = v
    · subst hav
      rw [getD_set_self _ _ _ _ (by simp; omega)]
      rw [hndv.mem_erase_iff]
      constructor
      · rintro ⟨h1, h2⟩
        exact ⟨h2, fun hh => hau hh.1, fun hh => h1 hh.2⟩
      · rintro ⟨h1, _, h3⟩
        exact ⟨fun hh => h3 ⟨rfl, hh⟩, h1⟩
    · rw [getD_set_ne _ _ _ (fun hh => hav hh.symm), getD_set_ne _ _ _ (fun hh => hau hh.symm)]
      simp [hau, hav]

/-- Operation `remove_edge` preserves the structural invariants (spec section 3), in
every branch. -/
theorem WF_remove_edge {g : Graph} (h : g.WF) (u v : Nat) : ((g.remove_edge u v).2).WF := by
  obtain ⟨hlen, hirr, hsym, hnd, hcnt, hrng⟩ := h
  by_cases hb : g.num_vertices ≤ u ∨ g.num_vertices ≤ v
  · rw [remove_edge_oob hb]
    exact ⟨hlen, hirr, hsym, hnd, hcnt, hrng⟩
  have hu : u < g.num_vertices := by omega
  have hv : v < g.num_vertices := by omega
  by_cases hd : g.has_edge u v
  case neg =>
    rw [remove_edge_absent hu hv (by simpa using hd)]
    exact ⟨hlen, hirr, hsym, hnd, hcnt, hrng⟩
  have hvin : v ∈ g.adj_list.getD u [] := has_edge_iff.mp hd
  have hne : u ≠ v := by
    intro hh
    subst hh
    exact hirr u hu hvin
  have huin : u ∈ g.adj_list.getD v [] := hsym u hu v hv hvin
  have hmem := remove_edge_found_mem hlen hu hv hne hd (hnd u hu) (hnd v hv) (g := g)
  rw [remove_edge_found hu hv hne hd] at hmem ⊢
  refine WF_mk ?_ ?_ ?_ ?_ ?_ ?_
  · simpa using hlen
  · intro i hi hcon
    exact hirr i hi ((hmem i i).mp hcon).1
  · intro a ha b hb hab
    obtain ⟨hin, hn1, hn2⟩ := (hmem a b).mp hab
    refine (hmem b a).mpr ⟨hsym a ha b hb hin, ?_, ?_⟩
    · rintro ⟨rfl, rfl⟩
      exact hn2 ⟨rfl, rfl⟩
    · rintro ⟨rfl, rfl⟩
      exact hn1 ⟨rfl, rfl⟩
  · intro j hj
    by_cases hju : j = u
    · subst hju
      rw [getD_set_ne _ _ _ (Ne.symm hne), getD_set_self _ _ _ _ (by omega)]
      exact (hnd j hj).erase v
    · by_cases hjv : j = v
      · subst hjv
        rw [getD_set_self _ _ _ _ (by simp; omega)]
        exact (hnd j hj).erase u
      · rw [getD_set_ne _ _ _ (fun hh => hjv hh.symm), getD_set_ne _ _ _ (fun hh => hju hh.symm)]
        exact hnd j hj
  · have h1 := sum_map_length_set g.adj_list u ((g.adj_list.getD u []).erase v) (by omega)
    have h2 := sum_map_length_set (g.adj_list.set u ((g.adj_list.getD u []).erase v)) v
      ((g.adj_list.getD v []).erase u) (by simp; omega)
    rw [getD_set_ne _ _ _ hne] at h2
    have he1 : ((g.adj_list.getD u []).erase v).length = (g.adj_list.getD u []).length - 1 :=
      List.length_erase_of_mem hvin
    have he2 : ((g.adj_list.getD v []).erase u).length = (g.adj_list.getD v []).length - 1 :=
      List.length_erase_of_mem huin
    have hl1 : 1 ≤ (g.adj_list.getD u []).length := List.length_pos.mpr (by
      intro hh
      rw [hh] at hvin
      exact List.not_mem_nil v hvin)
    have hl2 : 1 ≤ (g.adj_list.getD v []).length := List.length_pos.mpr (by
      intro hh
      rw [hh] at huin
      exact List.not_mem_nil u huin)
    have hsum1 : (g.adj_list.getD u []).length ≤ (g.adj_list.map List.length).sum :=
      getD_length_le_sum _ _ (by omega)
    omega
  · intro j hj b hbm
    exact hrng j hj b ((hmem j b).mp hbm).1

/-! ### Invariants of the remaining operations -/

theorem WF_empty : Graph.empty.WF := by decide

theorem getD_replicate_nil (n j : Nat) :
    (List.replicate n ([] : List Nat)).getD j [] = [] := by
  induction n generalizing j with
  | zero => simp
  | succ m ih =>
    cases j with
    | zero => simp [List.replicate]
    | succ k =>
      rw [List.replicate]
      simpa using ih k

theorem WF_mkSized (n : Nat) : (Graph.mkSized n).WF := by
  have hget : ∀ j : Nat, (List.replicate n ([] : List Nat)).getD j [] = [] :=
    fun j => getD_replicate_nil n j
  refine WF_mk (by simp) ?_ ?_ ?_ ?_ ?_
  · intro i _
    simp [hget]
  · intro a _ b _ hab
    rw [hget] at hab
    simp at hab
  · intro j _
    simp [hget]
  · simp [List.map_replicate]
  · intro j _ b hb
    rw [hget] at hb
    simp at hb

theorem WF_add_vertex {g : Graph} (h : g.WF) : g.add_vertex.WF := by
  obtain ⟨hlen, hirr, hsym, hnd, hcnt, hrng⟩ := h
  have hget : ∀ j : Nat, (g.adj_list ++ [[]]).getD j [] =
      if j < g.num_vertices then g.adj_list.getD j [] else [] := by
    intro j
    by_cases hj : j < g.num_vertices
    · rw [if_pos hj, List.getD_eq_getElem?_getD, List.getD_eq_getElem?_getD,
        List.getElem?_append, if_pos (by omega)]
    · rw [if_neg hj, List.getD_eq_getElem?_getD, List.getElem?_append, if_neg (by omega)]
      by_cases h0 : j - g.adj_list.length = 0
      · rw [h0]
        simp
      · rw [List.getElem?_eq_none (l := [([] : List Nat)])
          (n := j - g.adj_list.length) (by simp; omega)]
        simp
  refine WF_mk ?_ ?_ ?_ ?_ ?_ ?_
  · simp [Graph.add_vertex, hlen]
  · intro i _
    rw [hget]
    split
    · exact hirr i (by assumption)
    · simp
  · intro a _ b _ hab
    rw [hget] at hab
    split at hab
    · have hb : b < g.num_vertices := hrng a (by assumption) b hab
      rw [hget, if_pos hb]
      exact hsym a (by assumption) b hb hab
    · simp at hab
  · intro j _
    rw [hget]
    split
    · exact hnd j (by assumption)
    · simp
  · simpa using hcnt
  · intro j _ b hb
    rw [hget] at hb
    split at hb
    · exact Nat.lt_succ_of_lt (hrng j (by assumption) b hb)
    · simp at hb

theorem WF_clear (g : Graph) : g.clear.WF := WF_empty

theorem reserve_neighbors_snd (g : Graph) (v c : Nat) :
    (g.reserve_neighbors v c).2 = g := by
  unfold Graph.reserve_neighbors
  split
  · rfl
  · rfl

theorem WF_reserve_neighbors {g : Graph} (h : g.WF) (v c : Nat) :
    ((g.reserve_neighbors v c).2).WF := by
  rw [reserve_neighbors_snd]
  exact h

/-- Operation `add_edge` on in-range distinct endpoints never fails. -/
theorem add_edge_valid_none {g : Graph} {u v : Nat} (hu : u < g.num_vertices)
    (hv : v < g.num_vertices) (hne : u ≠ v) :
    g.add_edge u v = (none, (g.add_edge u v).2) := by
  by_cases hd : g.has_edge u v
  · rw [add_edge_dup hu hv hne hd]
  · rw [add_edge_new hu hv hne (by simpa using hd)]

/-- The edge relation after `add_edge` on valid input: the old edges plus the
unordered pair `{u, v}`. -/
theorem add_edge_has_edge_valid {g : Graph} (hWF : g.WF) {u v : Nat}
    (hu : u < g.num_vertices) (hv : v < g.num_vertices) (hne : u ≠ v) (i j : Nat) :
    (((g.add_edge u v).2).has_edge i j = true ↔
      (g.has_edge i j = true ∨ (i = u ∧ j = v) ∨ (i = v ∧ j = u))) := by
  obtain ⟨hlen, hirr, hsym, hnd, hcnt, hrng⟩ := hWF
  by_cases hd : g.has_edge u v
  · rw [add_edge_dup hu hv hne hd]
    constructor
    · exact fun hh => Or.inl hh
    · rintro (hh | ⟨h1, h2⟩ | ⟨h1, h2⟩)
      · exact hh
      · rw [h1, h2]
        exact hd
      · rw [h1, h2]
        exact has_edge_iff.mpr (hsym u hu v hv (has_edge_iff.mp hd))
  · have hd' : g.has_edge u v = false := by simpa using hd
    rw [has_edge_iff, has_edge_iff, add_edge_new_mem hlen hu hv hne hd']

/-! ### Sorting and deduplication (graph.cpp lines 79-80) -/

theorem mem_insertSorted {x a : Nat} {l : List Nat} :
    x ∈ insertSorted a l ↔ x = a ∨ x ∈ l := by
  induction l with
  | nil => simp [insertSorted]
  | cons y ys ih =>
    by_cases h : a ≤ y
    · simp [insertSorted, h]
    · simp only [insertSorted, if_neg h, List.mem_cons, ih]
      tauto

theorem sorted_insertSorted {a : Nat} {l : List Nat}
    (h : List.Pairwise (· ≤ ·) l) : List.Pairwise (· ≤ ·) (insertSorted a l) := by
  induction l with
  | nil => simp [insertSorted]
  | cons y ys ih =>
    rcases List.pairwise_cons.mp h with ⟨hy, hys⟩
    by_cases hle : a ≤ y
    · rw [insertSorted, if_pos hle]
      refine List.pairwise_cons.mpr ⟨?_, h⟩
      intro b hb
      rcases List.mem_cons.mp hb with rfl | hb
      · exact hle
      · exact le_trans hle (hy b hb)
    · rw [insertSorted, if_neg hle]
      refine List.pairwise_cons.mpr ⟨?_, ih hys⟩
      intro b hb
      rcases mem_insertSorted.mp hb with rfl | hb
      · omega
      · exact hy b hb

theorem mem_sortNat {x : Nat} {l : List Nat} : x ∈ sortNat l ↔ x ∈ l := by
  induction l with
  | nil => simp [sortNat]
  | cons y ys ih =>
    show x ∈ insertSorted y (sortNat ys) ↔ _
    rw [mem_insertSorted, ih]
    simp

theorem sorted_sortNat (l : List Nat) : List.Pairwise (· ≤ ·) (sortNat l) := by
  induction l with
  | nil => simp [sortNat]
  | cons y ys ih => exact sorted_insertSorted ih

theorem mem_uniqueAdj {x : Nat} : ∀ {l : List Nat}, x ∈ uniqueAdj l ↔ x ∈ l
  | [] => by simp [uniqueAdj]
  | [y] => by simp [uniqueAdj]
  | y :: z :: rest => by
    by_cases h : y = z
    · rw [uniqueAdj, if_pos h]
      rw [mem_uniqueAdj (l := z :: rest)]
      subst h
      simp
    · rw [uniqueAdj, if_neg h]
      simp only [List.mem_cons]
      rw [show (x ∈ uniqueAdj (z :: rest)) ↔ x ∈ z :: rest from mem_uniqueAdj]
      simp

theorem strictSorted_uniqueAdj : ∀ {l : List Nat}, List.Pairwise (· ≤ ·) l →
    List.Pairwise (· < ·) (uniqueAdj l)
  | [], _ => by simp [uniqueAdj]
  | [y], _ => by simp [uniqueAdj]
  | y :: z :: rest, h => by
    rcases List.pairwise_cons.mp h with ⟨hy, hrest⟩
    by_cases hyz : y = z
    · rw [uniqueAdj, if_pos hyz]
      exact strictSorted_uniqueAdj hrest
    · rw [uniqueAdj, if_neg hyz]
      refine List.pairwise_cons.mpr ⟨?_, strictSorted_uniqueAdj hrest⟩
      intro b hb
      have hbmem : b ∈ z :: rest := mem_uniqueAdj.mp hb
      have hzb : z ≤ b := by
        rcases List.mem_cons.mp hbmem with rfl | hb'
        · exact le_refl b
        · exact (List.pairwise_cons.mp hrest).1 b hb'
      have hyb : y ≤ z := hy z (by simp)
      omega

theorem nodup_labelsOf (raw : List (Nat × Nat)) : (labelsOf raw).Nodup := by
  have h := strictSorted_uniqueAdj (sorted_sortNat (rawEndpoints raw))
  exact h.imp Nat.ne_of_lt

theorem mem_labelsOf {x : Nat} {raw : List (Nat × Nat)} :
    x ∈ labelsOf raw ↔ x ∈ rawEndpoints raw := by
  unfold labelsOf
  rw [mem_uniqueAdj, mem_sortNat]

theorem mem_rawEndpoints_of_mem {p : Nat × Nat} : ∀ {raw : List (Nat × Nat)},
    p ∈ raw → p.1 ∈ rawEndpoints raw ∧ p.2 ∈ rawEndpoints raw
  | [], h => by simp at h
  | q :: ps, h => by
    rcases List.mem_cons.mp h with rfl | h'
    · simp [rawEndpoints]
    · have := mem_rawEndpoints_of_mem h'
      simp only [rawEndpoints, List.mem_cons]
      tauto

theorem indexOf_inj {l : List Nat} {a b : Nat} (ha : a ∈ l) (hb : b ∈ l)
    (h : l.indexOf a = l.indexOf b) : a = b := by
  have h1 := List.getElem_indexOf (List.indexOf_lt_length.mpr ha)
  have h2 := List.getElem_indexOf (List.indexOf_lt_length.mpr hb)
  rw [← h1, ← h2]
  congr 1

/-! ### The ingestion pipeline, step by step -/

theorem insertAll_cons_loop (labels : List Nat) (p : Nat × Nat) (ps : List (Nat × Nat))
    (g : Graph) (h : labels.indexOf p.1 = labels.indexOf p.2) :
    insertAll labels (p :: ps) g = insertAll labels ps g := by
  rw [insertAll, if_pos h]

theorem insertAll_cons_ok (labels : List Nat) (p : Nat × Nat) (ps : List (Nat × Nat))
    (g g1 : Graph) (hne : ¬ labels.indexOf p.1 = labels.indexOf p.2)
    (h : g.add_edge (labels.indexOf p.1) (labels.indexOf p.2) = (none, g1)) :
    insertAll labels (p :: ps) g = insertAll labels ps g1 := by
  rw [insertAll, if_neg hne, h]

/-- The insertion loop succeeds on valid remapped indices and produces
exactly the old edges plus the non-self-loop remapped pairs. -/
theorem insertAll_spec (labels : List Nat) (ps : List (Nat × Nat)) : ∀ (g : Graph),
    g.WF →
    (∀ p ∈ ps, labels.indexOf p.1 < g.num_vertices ∧ labels.indexOf p.2 < g.num_vertices) →
    ∃ g', insertAll labels ps g = .ok g' ∧ g'.WF ∧ g'.num_vertices = g.num_vertices ∧
      (∀ i j, g'.has_edge i j = true ↔ (g.has_edge i j = true ∨
        ∃ p ∈ ps, labels.indexOf p.1 ≠ labels.indexOf p.2 ∧
          ((labels.indexOf p.1 = i ∧ labels.indexOf p.2 = j) ∨
           (labels.indexOf p.1 = j ∧ labels.indexOf p.2 = i)))) := by
  induction ps with
  | nil => exact fun g hWF _ => ⟨g, rfl, hWF, rfl, by simp⟩
  | cons p ps ih =>
    intro g hWF hvalid
    have hp := hvalid p (by simp)
    by_cases heq : labels.indexOf p.1 = labels.indexOf p.2
    · obtain ⟨g', h1, h2, h3, h4⟩ := ih g hWF (fun q hq => hvalid q (by simp [hq]))
      refine ⟨g', ?_, h2, h3, ?_⟩
      · rw [insertAll_cons_loop labels p ps g heq]
        exact h1
      · intro i j
        rw [h4 i j]
        simp only [List.mem_cons, exists_eq_or_imp, heq, ne_eq, not_true_eq_false,
          false_and, false_or]
    · obtain ⟨g1, hg1⟩ : ∃ g1, g.add_edge (labels.indexOf p.1) (labels.indexOf p.2) = (none, g1) :=
        ⟨_, add_edge_valid_none hp.1 hp.2 heq⟩
      have hsnd : (g.add_edge (labels.indexOf p.1) (labels.indexOf p.2)).2 = g1 := by
        rw [hg1]
      have hWF1 : g1.WF := hsnd ▸ WF_add_edge hWF (labels.indexOf p.1) (labels.indexOf p.2)
      have hnum1 : g1.num_vertices = g.num_vertices :=
        hsnd ▸ add_edge_num_vertices g (labels.indexOf p.1) (labels.indexOf p.2)
      have hAE : ∀ i j, (g1.has_edge i j = true ↔
          (g.has_edge i j = true ∨ (i = labels.indexOf p.1 ∧ j = labels.indexOf p.2) ∨
            (i = labels.indexOf p.2 ∧ j = labels.indexOf p.1))) :=
        hsnd ▸ add_edge_has_edge_valid hWF hp.1 hp.2 heq
      obtain ⟨g', h1, h2, h3, h4⟩ :=
        ih g1 hWF1 (fun q hq => by
          rw [hnum1]
          exact hvalid q (by simp [hq]))
      refine ⟨g', ?_, h2, by rw [h3, hnum1], ?_⟩
      · rw [insertAll_cons_ok labels p ps g g1 heq hg1]
        exact h1
      · intro i j
        rw [h4 i j, hAE i j]
        have hbridge : ((i = labels.indexOf p.1 ∧ j = labels.indexOf p.2) ∨
            (i = labels.indexOf p.2 ∧ j = labels.indexOf p.1)) ↔
            (labels.indexOf p.1 ≠ labels.indexOf p.2 ∧
              ((labels.indexOf p.1 = i ∧ labels.indexOf p.2 = j) ∨
               (labels.indexOf p.1 = j ∧ labels.indexOf p.2 = i))) := by
          constructor
          · intro h
            omega
          · intro h
            omega
        rw [hbridge]
        simp only [List.mem_cons, exists_eq_or_imp]
        exact or_assoc

/-- The empty graph has no edges at all. -/
theorem has_edge_empty (i j : Nat) : Graph.empty.has_edge i j = false := by
  simp [Graph.empty, Graph.has_edge]

/-- The pre-sized graph has no edges at all. -/
theorem has_edge_mkSized (n i j : Nat) : (Graph.mkSized n).has_edge i j = false := by
  simp [Graph.mkSized, Graph.has_edge, getD_replicate_nil]

/-- Renumbering and insertion (graph.cpp lines 72-103) always succeeds, and
the result has one vertex per distinct label and exactly the distinct
non-self-loop remapped pairs as edges. -/
theorem fromRaw_spec (raw : List (Nat × Nat)) :
    ∃ g, Graph.fromRaw raw = .ok g ∧ g.WF ∧ g.num_vertices = (labelsOf raw).length ∧
      (∀ i j, g.has_edge i j = true ↔
        ∃ p ∈ raw, (labelsOf raw).indexOf p.1 ≠ (labelsOf raw).indexOf p.2 ∧
          (((labelsOf raw).indexOf p.1 = i ∧ (labelsOf raw).indexOf p.2 = j) ∨
           ((labelsOf raw).indexOf p.1 = j ∧ (labelsOf raw).indexOf p.2 = i))) := by
  match raw with
  | [] =>
    refine ⟨Graph.empty, rfl, WF_empty, rfl, ?_⟩
    intro i j
    simp [has_edge_empty]
  | q :: qs =>
    have hvalid : ∀ p ∈ q :: qs,
        (labelsOf (q :: qs)).indexOf p.1 < (Graph.mkSized (labelsOf (q :: qs)).length).num_vertices ∧
        (labelsOf (q :: qs)).indexOf p.2 < (Graph.mkSized (labelsOf (q :: qs)).length).num_vertices := by
      intro p hp
      have hm := mem_rawEndpoints_of_mem hp
      constructor
      · exact List.indexOf_lt_length.mpr (mem_labelsOf.mpr hm.1)
      · exact List.indexOf_lt_length.mpr (mem_labelsOf.mpr hm.2)
    obtain ⟨g, h1, h2, h3, h4⟩ :=
      insertAll_spec (labelsOf (q :: qs)) (q :: qs) (Graph.mkSized (labelsOf (q :: qs)).length)
        (WF_mkSized _) hvalid
    refine ⟨g, ?_, h2, h3, ?_⟩
    · rw [Graph.fromRaw]
      exact h1
    · intro i j
      rw [h4 i j]
      simp [has_edge_mkSized]

/-- If the read loop delivered raw pairs, ingestion is renumbering plus
insertion on them. -/
theorem fromLines_eq_fromRaw {lines : List String} {raw : List (Nat × Nat)}
    (h : collectRaw lines 0 = .ok raw) :
    Graph.fromLines lines = Graph.fromRaw raw := by
  unfold Graph.fromLines
  rw [h]

/-- A file of skipped lines only delivers no raw pairs. -/
theorem collectRaw_all_skip {lines : List String}
    (h : ∀ l ∈ lines, classifyLine l = .skip) : ∀ k, collectRaw lines k = .ok [] := by
  induction lines with
  | nil => intro k; rfl
  | cons l ls ih =>
    intro k
    rw [collectRaw, h l (by simp)]
    exact ih (fun l' hl' => h l' (by simp [hl'])) (k + 1)

/-- The read loop fails at the first malformed line, reporting its 1-based
line number. -/
theorem collectRaw_first_bad : ∀ (pre : List String) (k : Nat) (bad : String)
    (post : List String), (∀ l ∈ pre, classifyLine l ≠ .bad) → classifyLine bad = .bad →
    collectRaw (pre ++ bad :: post) k = .error (.formatError (k + pre.length + 1))
  | [], k, bad, post, _, hbad => by
    simp only [List.nil_append]
    rw [collectRaw, hbad]
    simp
  | l :: pre, k, bad, post, hpre, hbad => by
    have hl := hpre l (by simp)
    have ih := collectRaw_first_bad pre (k + 1) bad post
      (fun l' hl' => hpre l' (by simp [hl'])) hbad
    have harith : k + 1 + pre.length + 1 = k + (l :: pre).length + 1 := by
      simp
      omega
    rw [List.cons_append, collectRaw]
    match hc : classifyLine l with
    | .skip =>
      rw [ih, harith]
    | .bad => exact absurd hc hl
    | .edge u v =>
      rw [ih]
      rw [harith]
  termination_by pre => pre.length

/-- A file whose parseable lines are all label self-loops delivers raw pairs
with equal components. -/
theorem collectRaw_selfloops {lines : List String}
    (h : ∀ l ∈ lines, classifyLine l = .skip ∨ ∃ u, classifyLine l = .edge u u) :
    ∀ k, ∃ raw, collectRaw lines k = .ok raw ∧ ∀ p ∈ raw, p.1 = p.2 := by
  induction lines with
  | nil => exact fun k => ⟨[], rfl, by simp⟩
  | cons l ls ih =>
    intro k
    obtain ⟨raw, hraw, hself⟩ := ih (fun l' hl' => h l' (by simp [hl'])) (k + 1)
    rcases h l (by simp) with hskip | ⟨u, hedge⟩
    · exact ⟨raw, by rw [collectRaw, hskip]; exact hraw, hself⟩
    · refine ⟨(u, u) :: raw, ?_, ?_⟩
      · rw [collectRaw, hedge, hraw]
      · intro p hp
        rcases List.mem_cons.mp hp with rfl | hp'
        · rfl
        · exact hself p hp'

/-- Remapped self-loops are all skipped: the graph is returned unchanged. -/
theorem insertAll_all_loops (labels : List Nat) : ∀ (ps : List (Nat × Nat)) (g : Graph),
    (∀ p ∈ ps, labels.indexOf p.1 = labels.indexOf p.2) →
    insertAll labels ps g = .ok g
  | [], g, _ => rfl
  | p :: ps, g, h => by
    rw [insertAll, if_pos (h p (by simp))]
    exact insertAll_all_loops labels ps g (fun q hq => h q (by simp [hq]))

/-! ### Reachability: the traversal saturates to the reflexive-transitive
closure of the adjacency relation -/

theorem getD_eq_nil_of_ge {g : Graph} (hlen : g.adj_list.length = g.num_vertices)
    {a : Nat} (h : g.num_vertices ≤ a) : g.adj_list.getD a [] = [] := by
  rw [List.getD_eq_getElem?_getD, List.getElem?_eq_none (by omega)]
  rfl

theorem adjRel_symm {g : Graph} (hWF : g.WF) : Symmetric (adjRel g) := by
  obtain ⟨hlen, _, hsym, _, _, hrng⟩ := hWF
  intro a b hab
  unfold adjRel at *
  have ha : a < g.num_vertices := by
    by_contra hcon
    rw [getD_eq_nil_of_ge hlen (by omega)] at hab
    exact List.not_mem_nil b hab
  have hb : b < g.num_vertices := hrng a ha b hab
  exact hsym a ha b hb hab

theorem mem_neighborsUnion {g : Graph} {x : Nat} {s : List Nat} :
    x ∈ neighborsUnion g s ↔ ∃ u ∈ s, x ∈ g.adj_list.getD u [] := by
  induction s with
  | nil => simp [neighborsUnion]
  | cons u us ih => simp [neighborsUnion, List.mem_append, ih]

theorem mem_stepR {g : Graph} {s : List Nat} {x : Nat} :
    x ∈ stepR g s ↔ (x ∈ s ∨ ∃ u ∈ s, x ∈ g.adj_list.getD u []) := by
  simp [stepR, List.mem_append, mem_neighborsUnion]

theorem self_mem_reachL (g : Graph) (i : Nat) : ∀ k, i ∈ reachL g i k
  | 0 => by simp [reachL]
  | k + 1 => mem_stepR.mpr (Or.inl (self_mem_reachL g i k))

theorem reachL_subset_lt {g : Graph} (hWF : g.WF) {i : Nat} (hi : i < g.num_vertices) :
    ∀ k, ∀ x ∈ reachL g i k, x < g.num_vertices := by
  obtain ⟨hlen, _, _, _, _, hrng⟩ := hWF
  intro k
  induction k with
  | zero =>
    intro x hx
    simp only [reachL, List.mem_singleton] at hx
    omega
  | succ k ih =>
    intro x hx
    rcases mem_stepR.mp hx with hx' | ⟨u, hu, hx'⟩
    · exact ih x hx'
    · exact hrng u (ih u hu) x hx'

theorem reachL_sound {g : Graph} {i : Nat} :
    ∀ k, ∀ x ∈ reachL g i k, Relation.ReflTransGen (adjRel g) i x := by
  intro k
  induction k with
  | zero =>
    intro x hx
    simp only [reachL, List.mem_singleton] at hx
    rw [hx]
  | succ k ih =>
    intro x hx
    rcases mem_stepR.mp hx with hx' | ⟨u, hu, hx'⟩
    · exact ih x hx'
    · exact Relation.ReflTransGen.tail (ih u hu) hx'

theorem stepR_mem_congr {g : Graph} {s t : List Nat} (h : ∀ y, y ∈ s ↔ y ∈ t) :
    ∀ y, y ∈ stepR g s ↔ y ∈ stepR g t := by
  intro y
  rw [mem_stepR, mem_stepR]
  constructor
  · rintro (hy | ⟨u, hu, hy⟩)
    · exact Or.inl ((h y).mp hy)
    · exact Or.inr ⟨u, (h u).mp hu, hy⟩
  · rintro (hy | ⟨u, hu, hy⟩)
    · exact Or.inl ((h y).mpr hy)
    · exact Or.inr ⟨u, (h u).mpr hu, hy⟩

theorem reachL_stab {g : Graph} {i k : Nat}
    (h : ∀ y, y ∈ reachL g i (k + 1) ↔ y ∈ reachL g i k) :
    ∀ m, ∀ y, y ∈ reachL g i (k + m) ↔ y ∈ reachL g i k := by
  intro m
  induction m with
  | zero => intro y; rfl
  | succ m ih =>
    intro y
    have hstep : y ∈ reachL g i (k + (m + 1)) ↔ y ∈ reachL g i (k + 1) := by
      show y ∈ stepR g (reachL g i (k + m)) ↔ y ∈ stepR g (reachL g i k)
      exact stepR_mem_congr ih y
    exact hstep.trans (h y)

theorem reachF_mono (g : Graph) (i k : Nat) : reachF g i k ⊆ reachF g i (k + 1) := by
  intro y hy
  rw [reachF, List.mem_toFinset] at hy ⊢
  exact mem_stepR.mpr (Or.inl hy)

/-- Either the traversal has stabilised by round `k`, or it has discovered at
least `k + 1` vertices. -/
theorem reachL_grow (g : Graph) (i : Nat) : ∀ k,
    (∀ y, y ∈ reachL g i (k + 1) ↔ y ∈ reachL g i k) ∨ k + 1 ≤ (reachF g i k).card := by
  intro k
  induction k with
  | zero =>
    by_cases h : ∀ y, y ∈ reachL g i 1 ↔ y ∈ reachL g i 0
    · exact Or.inl h
    · right
      have : i ∈ reachF g i 0 := by
        rw [reachF, List.mem_toFinset]
        exact self_mem_reachL g i 0
      exact Finset.card_pos.mpr ⟨i, this⟩
  | succ k ihk =>
    by_cases hstab0 : ∀ y, y ∈ reachL g i (k + 1) ↔ y ∈ reachL g i k
    · left
      intro y
      exact stepR_mem_congr hstab0 y
    · right
      have hcard : k + 1 ≤ (reachF g i k).card := by
        rcases ihk with hstab | hcard
        · exact absurd hstab hstab0
        · exact hcard
      push_neg at hstab0
      obtain ⟨y, hy⟩ := hstab0
      have hyin : y ∈ reachF g i (k + 1) ∧ y ∉ reachF g i k := by
        rw [reachF, reachF, List.mem_toFinset, List.mem_toFinset]
        rcases hy with ⟨h1, h2⟩ | ⟨h1, h2⟩
        · exact ⟨h1, h2⟩
        · exact absurd (mem_stepR.mpr (Or.inl h2)) h1
      have hss : reachF g i k ⊂ reachF g i (k + 1) :=
        ⟨reachF_mono g i k, fun hsub => hyin.2 (hsub hyin.1)⟩
      have := Finset.card_lt_card hss
      omega

theorem reachF_subset_range {g : Graph} (hWF : g.WF) {i : Nat} (hi : i < g.num_vertices)
    (k : Nat) : reachF g i k ⊆ Finset.range g.num_vertices := by
  intro y hy
  rw [reachF, List.mem_toFinset] at hy
  rw [Finset.mem_range]
  exact reachL_subset_lt hWF hi k y hy

/-- After `num_vertices` rounds the traversal is closed under adjacency. -/
theorem reachL_closed {g : Graph} (hWF : g.WF) {i : Nat} (hi : i < g.num_vertices)
    {x y : Nat} (hx : x ∈ reachL g i g.num_vertices) (hxy : adjRel g x y) :
    y ∈ reachL g i g.num_vertices := by
  rcases reachL_grow g i g.num_vertices with hstab | hcard
  · exact (hstab y).mp (mem_stepR.mpr (Or.inr ⟨x, hx, hxy⟩))
  · exfalso
    have h1 := Finset.card_le_card (reachF_subset_range hWF hi g.num_vertices)
    rw [Finset.card_range] at h1
    omega

theorem reachL_complete {g : Graph} (hWF : g.WF) {i x : Nat} (hi : i < g.num_vertices)
    (h : Relation.ReflTransGen (adjRel g) i x) : x ∈ reachL g i g.num_vertices := by
  induction h with
  | refl => exact self_mem_reachL g i g.num_vertices
  | tail _ hbc ih => exact reachL_closed hWF hi ih hbc

theorem mem_reachL_iff {g : Graph} (hWF : g.WF) {i x : Nat} (hi : i < g.num_vertices) :
    x ∈ reachL g i g.num_vertices ↔ Relation.ReflTransGen (adjRel g) i x :=
  ⟨reachL_sound g.num_vertices x, reachL_complete hWF hi⟩

/-! ### Components -/

theorem mem_componentOf {g : Graph} {i v : Nat} :
    v ∈ componentOf g i ↔ (v < g.num_vertices ∧ v ∈ reachL g i g.num_vertices) := by
  simp [componentOf, List.mem_filter, List.mem_range]

theorem self_mem_componentOf {g : Graph} {i : Nat} (hi : i < g.num_vertices) :
    i ∈ componentOf g i :=
  mem_componentOf.mpr ⟨hi, self_mem_reachL g i g.num_vertices⟩

theorem componentOf_sorted (g : Graph) (i : Nat) :
    List.Pairwise (· < ·) (componentOf g i) :=
  (List.pairwise_lt_range g.num_vertices).filter _

theorem componentOf_nodup (g : Graph) (i : Nat) : (componentOf g i).Nodup :=
  (componentOf_sorted g i).imp Nat.ne_of_lt

/-- Two traversals started inside the same component reach the same vertex
set: reachability along symmetric adjacency is an equivalence. -/
theorem componentOf_eq_of_mem {g : Graph} (hWF : g.WF) {i j : Nat}
    (hi : i < g.num_vertices) (hj : j ∈ componentOf g i) :
    componentOf g j = componentOf g i := by
  obtain ⟨hjn, hjr⟩ := mem_componentOf.mp hj
  have hij : Relation.ReflTransGen (adjRel g) i j := reachL_sound g.num_vertices j hjr
  have hji : Relation.ReflTransGen (adjRel g) j i :=
    (Relation.ReflTransGen.symmetric (adjRel_symm hWF)) hij
  unfold componentOf
  apply List.filter_congr
  intro v hv
  rw [decide_eq_decide, mem_reachL_iff hWF hjn, mem_reachL_iff hWF hi]
  constructor
  · exact fun h => hij.trans h
  · exact fun h => hji.trans h

theorem notMem_append (V c : List Nat) (a : Nat) :
    notMem (V ++ c) a = (notMem V a && notMem c a) := by
  simp [notMem, List.mem_append, not_or]

theorem headD_eq_min {c : List Nat} {i : Nat} (hs : List.Pairwise (· < ·) c)
    (hi : i ∈ c) (hmin : ∀ x ∈ c, i ≤ x) : c.headD 0 = i := by
  cases c with
  | nil => simp at hi
  | cons h t =>
    rcases List.mem_cons.mp hi with rfl | hit
    · rfl
    · have h1 : h < i := (List.pairwise_cons.mp hs).1 i hit
      have h2 : i ≤ h := hmin h (by simp)
      rw [List.headD_cons]
      omega

theorem collect_cons_mem {g : Graph} {i : Nat} {rest visited : List Nat}
    (h : i ∈ visited) :
    collectComponents g (i :: rest) visited = collectComponents g rest visited := by
  rw [collectComponents, if_pos h]

theorem collect_cons_new {g : Graph} {i : Nat} {rest visited : List Nat}
    (h : i ∉ visited) :
    collectComponents g (i :: rest) visited =
      componentOf g i :: collectComponents g rest (visited ++ componentOf g i) := by
  rw [collectComponents, if_neg h]

/-- Main loop invariant of `get_all_connected_components`: processing the
(sorted) seed candidates `l` against visited set `V` emits components that
together are a permutation of the unvisited part of `l`, each component is a
full traversal result headed by its seed, and seeds strictly ascend. -/
theorem collect_spec {g : Graph} (hWF : g.WF) : ∀ (l V : List Nat),
    (∀ a ∈ l, a < g.num_vertices) →
    List.Pairwise (· < ·) l →
    (∀ a ∈ l, ∀ x ∈ componentOf g a, x ∈ l ∨ x ∈ V) →
    (∀ v ∈ V, ∀ x ∈ componentOf g v, x ∈ V) →
    ((collectComponents g l V).flatten.Perm (l.filter (notMem V)) ∧
     (∀ c ∈ collectComponents g l V,
        ∃ s, s ∈ l ∧ s ∉ V ∧ c = componentOf g s ∧ c.headD 0 = s) ∧
     List.Pairwise (fun c d => c.headD 0 < d.headD 0) (collectComponents g l V)) := by
  intro l
  induction l with
  | nil =>
    intro V _ _ _ _
    refine ⟨by simp [collectComponents], by simp [collectComponents], by simp [collectComponents]⟩
  | cons i rest ih =>
    intro V hl hsort hcl hcv
    have hin : i < g.num_vertices := hl i (by simp)
    have hresttail := (List.pairwise_cons.mp hsort).2
    have hirest := (List.pairwise_cons.mp hsort).1
    by_cases hiV : i ∈ V
    · rw [collect_cons_mem hiV]
      have hcl' : ∀ a ∈ rest, ∀ x ∈ componentOf g a, x ∈ rest ∨ x ∈ V := by
        intro a ha x hx
        rcases hcl a (by simp [ha]) x hx with hx' | hx'
        · rcases List.mem_cons.mp hx' with rfl | hx''
          · exact Or.inr hiV
          · exact Or.inl hx''
        · exact Or.inr hx'
      obtain ⟨hperm, hcomps, hpair⟩ := ih V (fun a ha => hl a (by simp [ha])) hresttail hcl' hcv
      have hfilter : (i :: rest).filter (notMem V) = rest.filter (notMem V) := by
        rw [List.filter_cons_of_neg (by simp [notMem, hiV])]
      refine ⟨by rw [hfilter]; exact hperm, ?_, hpair⟩
      intro c hc
      obtain ⟨s, hs1, hs2, hs3, hs4⟩ := hcomps c hc
      exact ⟨s, by simp [hs1], hs2, hs3, hs4⟩
    · rw [collect_cons_new hiV]
      have hic : i ∈ componentOf g i := self_mem_componentOf hin
      have hdisj : ∀ x ∈ componentOf g i, x ∉ V := by
        intro x hx hxV
        have hcx : componentOf g x = componentOf g i := componentOf_eq_of_mem hWF hin hx
        have hix : i ∈ componentOf g x := by rw [hcx]; exact hic
        exact hiV (hcv x hxV i hix)
      have hsubl : ∀ x ∈ componentOf g i, x ∈ i :: rest := by
        intro x hx
        rcases hcl i (by simp) x hx with hx' | hx'
        · exact hx'
        · exact absurd hx' (hdisj x hx)
      have hmin : ∀ x ∈ componentOf g i, i ≤ x := by
        intro x hx
        rcases List.mem_cons.mp (hsubl x hx) with rfl | hx'
        · exact le_refl x
        · exact le_of_lt (hirest x hx')
      have hhead : (componentOf g i).headD 0 = i :=
        headD_eq_min (componentOf_sorted g i) hic hmin
      have hcl' : ∀ a ∈ rest, ∀ x ∈ componentOf g a,
          x ∈ rest ∨ x ∈ V ++ componentOf g i := by
        intro a ha x hx
        rcases hcl a (by simp [ha]) x hx with hx' | hx'
        · rcases List.mem_cons.mp hx' with rfl | hx''
          · exact Or.inr (List.mem_append.mpr (Or.inr hic))
          · exact Or.inl hx''
        · exact Or.inr (List.mem_append.mpr (Or.inl hx'))
      have hcv' : ∀ v ∈ V ++ componentOf g i, ∀ x ∈ componentOf g v,
          x ∈ V ++ componentOf g i := by
        intro v hv x hx
        rcases List.mem_append.mp hv with hv' | hv'
        · exact List.mem_append.mpr (Or.inl (hcv v hv' x hx))
        · have hce : componentOf g v = componentOf g i := componentOf_eq_of_mem hWF hin hv'
          rw [hce] at hx
          exact List.mem_append.mpr (Or.inr hx)
      obtain ⟨hperm, hcomps, hpair⟩ :=
        ih (V ++ componentOf g i) (fun a ha => hl a (by simp [ha])) hresttail hcl' hcv'
      have hfilter : rest.filter (notMem (V ++ componentOf g i)) =
          (rest.filter (notMem V)).filter (notMem (componentOf g i)) := by
        rw [List.filter_filter]
        apply List.filter_congr
        intro a _
        rw [notMem_append, Bool.and_comm]
      have hRnd : (rest.filter (notMem V)).Nodup :=
        (hresttail.imp Nat.ne_of_lt).filter _
      have hiR : i ∉ rest.filter (notMem V) := by
        intro hcon
        exact absurd (hirest i (List.mem_filter.mp hcon).1) (lt_irrefl i)
      have hkey : (componentOf g i ++
          (rest.filter (notMem V)).filter (notMem (componentOf g i))).Perm
          (i :: rest.filter (notMem V)) := by
        rw [List.perm_ext_iff_of_nodup]
        · intro a
          simp only [List.mem_append, List.mem_filter, List.mem_cons]
          constructor
          · rintro (hac | ⟨⟨haR, hanV⟩, _⟩)
            · rcases List.mem_cons.mp (hsubl a hac) with rfl | har
              · exact Or.inl rfl
              · exact Or.inr ⟨har, by simp [notMem, hdisj a hac]⟩
            · exact Or.inr ⟨haR, hanV⟩
          · rintro (rfl | haR)
            · exact Or.inl hic
            · by_cases hac : a ∈ componentOf g i
              · exact Or.inl hac
              · exact Or.inr ⟨haR, by simp [notMem, hac]⟩
        · refine List.Nodup.append (componentOf_nodup g i) (hRnd.filter _) ?_
          intro x hxc hxf
          have := (List.mem_filter.mp hxf).2
          simp [notMem, hxc] at this
        · rw [List.nodup_cons]
          exact ⟨hiR, hRnd⟩
      have hfc : (i :: rest).filter (notMem V) = i :: rest.filter (notMem V) := by
        rw [List.filter_cons_of_pos (by simp [notMem, hiV])]
      refine ⟨?_, ?_, ?_⟩
      · rw [List.flatten_cons, hfc]
        refine List.Perm.trans (List.Perm.append_left (componentOf g i) ?_) hkey
        rw [← hfilter]
        exact hperm
      · intro c hc
        rcases List.mem_cons.mp hc with rfl | hc'
        · exact ⟨i, by simp, hiV, rfl, hhead⟩
        · obtain ⟨s, hs1, hs2, hs3, hs4⟩ := hcomps c hc'
          refine ⟨s, by simp [hs1], fun hsV => hs2 (List.mem_append.mpr (Or.inl hsV)), hs3, hs4⟩
      · rw [List.pairwise_cons]
        refine ⟨?_, hpair⟩
        intro d hd
        obtain ⟨s, hs1, _, _, hs4⟩ := hcomps d hd
        rw [hhead, hs4]
        exact hirest s hs1

/-! ### Bridge lemmas for the claim theorems -/

theorem fromLines_error {lines : List String} {e : IngestError}
    (h : collectRaw lines 0 = .error e) : Graph.fromLines lines = .error e := by
  unfold Graph.fromLines
  rw [h]

theorem WF_fromLines {ls : List String} {g' : Graph}
    (h : Graph.fromLines ls = .ok g') : g'.WF := by
  cases hc : collectRaw ls 0 with
  | error e =>
    rw [fromLines_error hc] at h
    simp at h
  | ok raw =>
    rw [fromLines_eq_fromRaw hc] at h
    obtain ⟨g'', h1, h2, _, _⟩ := fromRaw_spec raw
    rw [h1] at h
    simp only [Except.ok.injEq] at h
    rw [← h]
    exact h2

theorem add_edge_fail_unchanged {g : Graph} {u v : Nat} {e : GraphError}
    (h : (g.add_edge u v).1 = some e) : (g.add_edge u v).2 = g := by
  by_cases hb : g.num_vertices ≤ u ∨ g.num_vertices ≤ v
  · rw [add_edge_oob hb]
  · have hu : u < g.num_vertices := by omega
    have hv : v < g.num_vertices := by omega
    by_cases he : u = v
    · rw [add_edge_loop hu hv he]
    · by_cases hd : g.has_edge u v
      · rw [add_edge_dup hu hv he hd]
      · rw [add_edge_new hu hv he (by simpa using hd)] at h
        simp at h

theorem remove_edge_found_raw {g : Graph} {u v : Nat} (hu : u < g.num_vertices)
    (hv : v < g.num_vertices) (hd : g.has_edge u v = true) :
    g.remove_edge u v = (none, ⟨g.num_vertices, g.num_edges - 1,
      ((g.adj_list.set u ((g.adj_list.getD u []).erase v)).set v
        (((g.adj_list.set u ((g.adj_list.getD u []).erase v)).getD v []).erase u))⟩) := by
  unfold Graph.remove_edge
  rw [if_neg (by omega), if_pos hd]

theorem remove_edge_fail_unchanged {g : Graph} {u v : Nat} {e : GraphError}
    (h : (g.remove_edge u v).1 = some e) : (g.remove_edge u v).2 = g := by
  by_cases hb : g.num_vertices ≤ u ∨ g.num_vertices ≤ v
  · rw [remove_edge_oob hb]
  · have hu : u < g.num_vertices := by omega
    have hv : v < g.num_vertices := by omega
    by_cases hd : g.has_edge u v
    · rw [remove_edge_found_raw hu hv hd] at h
      simp at h
    · rw [remove_edge_absent hu hv (by simpa using hd)]

theorem drawSeq_length : ∀ (m : MT) (k : Nat), (drawSeq m k).length = k
  | _, 0 => rfl
  | m, k + 1 => by
    show ((mtNext m).1 :: drawSeq (mtNext m).2 k).length = k + 1
    rw [List.length_cons, drawSeq_length (mtNext m).2 k]

theorem map_range_getD (L : List Nat) (f : Nat → MT) :
    (List.range L.length).map (fun i => f (L.getD i 0)) = L.map f := by
  induction L with
  | nil => rfl
  | cons x xs ih =>
    rw [List.length_cons, List.range_succ_eq_map, List.map_cons, List.map_map, List.map_cons]
    congr 1

/-- Re-seeding installs, worker by worker, exactly the generators that the
seeded constructor builds. -/
theorem reseed_generators (t s s0 : Nat) :
    ((RNG.mkSeeded t s0).reseed s).generators = (RNG.mkSeeded t s).generators := by
  have h := map_range_getD (drawSeq (mtInit s) t) mtInit
  rw [drawSeq_length (mtInit s) t] at h
  simp only [RNG.reseed, RNG.mkSeeded, MT.seedWith, initGenerators]
  exact h

theorem mk_adj (n e : Nat) (A : List (List Nat)) : (Graph.mk n e A).adj_list = A := rfl

theorem mk_nv (n e : Nat) (A : List (List Nat)) : (Graph.mk n e A).num_vertices = n := rfl

theorem mk_ne (n e : Nat) (A : List (List Nat)) : (Graph.mk n e A).num_edges = e := rfl

/-- Inserting a fresh edge and then removing it restores the exact previous
state. -/
theorem add_then_remove {g : Graph} (hWF : g.WF) {u v : Nat} (hu : u < g.num_vertices)
    (hv : v < g.num_vertices) (hne : u ≠ v) (hnd : g.has_edge u v = false) :
    (((g.add_edge u v).2).remove_edge u v).2 = g := by
  obtain ⟨hlen, hirr, hsym, hndup, hcnt, hrng⟩ := hWF
  have hmemu : v ∉ g.adj_list.getD u [] := has_edge_false_iff.mp hnd
  have hmemv : u ∉ g.adj_list.getD v [] := fun hcon => hmemu (hsym v hv u hu hcon)
  rw [add_edge_new hu hv hne hnd]
  have hBu : ((g.adj_list.set u (g.adj_list.getD u [] ++ [v])).set v
      (g.adj_list.getD v [] ++ [u])).getD u [] = g.adj_list.getD u [] ++ [v] := by
    rw [getD_set_ne _ _ _ (Ne.symm hne), getD_set_self _ _ _ _ (by omega)]
  have hd1 : (Graph.mk g.num_vertices (g.num_edges + 1)
      ((g.adj_list.set u (g.adj_list.getD u [] ++ [v])).set v
        (g.adj_list.getD v [] ++ [u]))).has_edge u v = true := by
    rw [has_edge_iff, mk_adj, hBu]
    simp
  rw [remove_edge_found_raw (g := Graph.mk g.num_vertices (g.num_edges + 1)
    ((g.adj_list.set u (g.adj_list.getD u [] ++ [v])).set v
      (g.adj_list.getD v [] ++ [u]))) hu hv hd1]
  simp only [mk_adj, mk_nv, mk_ne]
  rw [hBu]
  have e1 : (g.adj_list.getD u [] ++ [v]).erase v = g.adj_list.getD u [] := by
    rw [List.erase_append_right _ hmemu, List.erase_cons_head, List.append_nil]
  rw [e1]
  have hcomm : ((g.adj_list.set u (g.adj_list.getD u [] ++ [v])).set v
      (g.adj_list.getD v [] ++ [u])).set u (g.adj_list.getD u []) =
      g.adj_list.set v (g.adj_list.getD v [] ++ [u]) := by
    rw [List.set_comm _ _ _ (Ne.symm hne), List.set_set, set_getD_self _ _ _ (by omega)]
  rw [hcomm, getD_set_self _ _ _ _ (by omega)]
  have e2 : (g.adj_list.getD v [] ++ [u]).erase u = g.adj_list.getD v [] := by
    rw [List.erase_append_right _ hmemv, List.erase_cons_head, List.append_nil]
  rw [e2, List.set_set, set_getD_self _ _ _ (by omega)]
  show Graph.mk g.num_vertices g.num_edges g.adj_list = g
  rfl

/-- The renumbered graph is empty exactly when no raw pair was read. -/
theorem fromRaw_nv_zero_iff {raw : List (Nat × Nat)} {g : Graph}
    (h : Graph.fromRaw raw = .ok g) : (g.num_vertices = 0 ↔ raw = []) := by
  obtain ⟨g'', h1, _, h3, _⟩ := fromRaw_spec raw
  rw [h1] at h
  simp only [Except.ok.injEq] at h
  rw [← h, h3]
  cases raw with
  | nil => simp [labelsOf, rawEndpoints, sortNat, uniqueAdj]
  | cons q qs =>
    have hq : q.1 ∈ labelsOf (q :: qs) :=
      mem_labelsOf.mpr (mem_rawEndpoints_of_mem (by simp)).1
    constructor
    · intro h0
      rw [List.length_eq_zero] at h0
      rw [h0] at hq
      exact absurd hq (List.not_mem_nil q.1)
    · intro h0
      exact absurd h0 (by simp)

/-- Same statement at the level of `fromLines`. -/
theorem fromLines_nv_zero_iff {lines : List String} {raw : List (Nat × Nat)} {g : Graph}
    (hc : collectRaw lines 0 = .ok raw) (h : Graph.fromLines lines = .ok g) :
    (g.num_vertices = 0 ↔ raw = []) := by
  rw [fromLines_eq_fromRaw hc] at h
  exact fromRaw_nv_zero_iff h

/-! ### Claim theorems -/

/-- Claim C1: the constructors establish the structural invariants of spec
section 3 (adjacency length equals the vertex count, no self-loops, symmetry,
no duplicate neighbours, `2 * edge_count` equals the total adjacency size,
and every stored id is in `[0, vertex_count)`), and every public mutating
operation preserves them: `add_edge`, `remove_edge`, `add_vertex`, `clear`
and `reserve_neighbors` in all branches, and file ingestion always produces
an invariant-satisfying graph. -/
theorem graph_invariants_preserved (n u v c : Nat) (ls : List String) (g g' : Graph)
    (hg : g.WF) (hin : Graph.fromLines ls = .ok g') :
    Graph.empty.WF ∧ (Graph.mkSized n).WF ∧
      ((g.add_edge u v).2).WF ∧ ((g.remove_edge u v).2).WF ∧
      g.add_vertex.WF ∧ g.clear.WF ∧ ((g.reserve_neighbors v c).2).WF ∧ g'.WF :=
  ⟨WF_empty, WF_mkSized n, WF_add_edge hg u v, WF_remove_edge hg u v,
    WF_add_vertex hg, WF_clear g, WF_reserve_neighbors hg v c, WF_fromLines hin⟩

/-- Witness for claim C1 at concrete inputs. -/
theorem graph_invariants_preserved_witness :
    Graph.empty.WF ∧ (Graph.mkSized 1).WF ∧
      (((Graph.mkSized 2).add_edge 0 1).2).WF ∧ (((Graph.mkSized 2).remove_edge 0 1).2).WF ∧
      (Graph.mkSized 2).add_vertex.WF ∧ (Graph.mkSized 2).clear.WF ∧
      (((Graph.mkSized 2).reserve_neighbors 1 3).2).WF ∧ (⟨2, 1, [[1], [0]]⟩ : Graph).WF :=
  graph_invariants_preserved 1 0 1 3 ["0 1"] (Graph.mkSized 2) ⟨2, 1, [[1], [0]]⟩
    (by decide) (by rfl)

/-- Claim C3: `add_edge` fails out-of-range when an endpoint is at least
`vertex_count`, fails invalid-argument on a self-loop, is a no-op when the
edge exists (and is idempotent), and otherwise appends each endpoint to the
other's neighbour list and increments the edge count by exactly one. -/
theorem add_edge_contract (g : Graph) (u v : Nat) (hWF : g.WF) :
    (g.num_vertices ≤ u ∨ g.num_vertices ≤ v → g.add_edge u v = (some .outOfRange, g)) ∧
    (u < g.num_vertices → v < g.num_vertices → u = v →
      g.add_edge u v = (some .invalidArgument, g)) ∧
    (u < g.num_vertices → v < g.num_vertices → u ≠ v → g.has_edge u v = true →
      g.add_edge u v = (none, g)) ∧
    (u < g.num_vertices → v < g.num_vertices → u ≠ v → g.has_edge u v = false →
      (g.add_edge u v).1 = none ∧
      ((g.add_edge u v).2).num_edges = g.num_edges + 1 ∧
      ((g.add_edge u v).2).adj_list.getD u [] = g.adj_list.getD u [] ++ [v] ∧
      ((g.add_edge u v).2).adj_list.getD v [] = g.adj_list.getD v [] ++ [u]) ∧
    (((g.add_edge u v).2).add_edge u v).2 = (g.add_edge u v).2 := by
  obtain ⟨hlen, hirr, hsym, hnd, hcnt, hrng⟩ := hWF
  have hWF' : g.WF := ⟨hlen, hirr, hsym, hnd, hcnt, hrng⟩
  refine ⟨fun hb => add_edge_oob hb, fun hu hv he => add_edge_loop hu hv he,
    fun hu hv hne hd => add_edge_dup hu hv hne hd, ?_, ?_⟩
  · intro hu hv hne hnd
    rw [add_edge_new hu hv hne hnd]
    refine ⟨rfl, rfl, ?_, ?_⟩
    · rw [getD_set_ne _ _ _ (Ne.symm hne), getD_set_self _ _ _ _ (by omega)]
    · rw [getD_set_self _ _ _ _ (by simp; omega)]
  · by_cases hb : g.num_vertices ≤ u ∨ g.num_vertices ≤ v
    · rw [add_edge_oob hb]
      show (g.add_edge u v).2 = g
      rw [add_edge_oob hb]
    · have hu : u < g.num_vertices := by omega
      have hv : v < g.num_vertices := by omega
      by_cases he : u = v
      · rw [add_edge_loop hu hv he]
        show (g.add_edge u v).2 = g
        rw [add_edge_loop hu hv he]
      · by_cases hd : g.has_edge u v
        · rw [add_edge_dup hu hv he hd]
          show (g.add_edge u v).2 = g
          rw [add_edge_dup hu hv he hd]
        · have hnd : g.has_edge u v = false := by simpa using hd
          have h1 : ((g.add_edge u v).2).has_edge u v = true := by
            rw [has_edge_iff, add_edge_new_mem hlen hu hv he hnd]
            exact Or.inr (Or.inl ⟨rfl, rfl⟩)
          have hnum := add_edge_num_vertices g u v
          rw [add_edge_dup (by rw [hnum]; exact hu) (by rw [hnum]; exact hv) he h1]

/-- Witness for claim C3 (the idempotence conjunct) at concrete inputs. -/
theorem add_edge_contract_witness :
    ((((Graph.mkSized 2).add_edge 0 1).2).add_edge 0 1).2 = ((Graph.mkSized 2).add_edge 0 1).2 :=
  (add_edge_contract (Graph.mkSized 2) 0 1 (by decide)).2.2.2.2

/-- Claim C6: when every line of the file is blank or a comment (so no edge
was read), ingestion yields the empty graph with zero vertices and zero
edges. -/
theorem skipped_lines_only_empty_graph (lines : List String)
    (h : ∀ l ∈ lines, classifyLine l = .skip) :
    Graph.fromLines lines = .ok Graph.empty ∧ Graph.empty.num_vertices = 0 ∧
      Graph.empty.num_edges = 0 :=
  ⟨by rw [fromLines_eq_fromRaw (collectRaw_all_skip h 0)]; rfl, rfl, rfl⟩

/-- Witness for claim C6 on a file of one comment, one empty and one
whitespace-only line. -/
theorem skipped_lines_only_empty_graph_witness :
    Graph.fromLines ["# comment", "", "  "] = .ok Graph.empty ∧
      Graph.empty.num_vertices = 0 ∧ Graph.empty.num_edges = 0 :=
  skipped_lines_only_empty_graph ["# comment", "", "  "] (by decide)

/-- Claim C7: a failing `add_edge`, `remove_edge` or `reserve_neighbors`
call returns the state unchanged; an out-of-range endpoint produces the
out-of-range error on all five operations (`degree` and `neighbors` are
`const` in C++ and are embedded as pure functions, so they cannot modify the
graph by construction); and an in-range self-loop insertion fails with the
invalid-argument error, also leaving the state unchanged. -/
theorem failing_calls_leave_graph_unchanged (g : Graph) (u v c : Nat) :
    (∀ e, (g.add_edge u v).1 = some e → (g.add_edge u v).2 = g) ∧
    (∀ e, (g.remove_edge u v).1 = some e → (g.remove_edge u v).2 = g) ∧
    (∀ e, (g.reserve_neighbors u c).1 = some e → (g.reserve_neighbors u c).2 = g) ∧
    (g.num_vertices ≤ u →
      g.add_edge u v = (some .outOfRange, g) ∧
      g.remove_edge u v = (some .outOfRange, g) ∧
      g.degree u = .error .outOfRange ∧
      g.neighbors u = .error .outOfRange ∧
      g.reserve_neighbors u c = (some .outOfRange, g)) ∧
    (u < g.num_vertices → g.add_edge u u = (some .invalidArgument, g)) := by
  refine ⟨fun e he => add_edge_fail_unchanged he, fun e he => remove_edge_fail_unchanged he,
    fun e _ => reserve_neighbors_snd g u c, ?_, ?_⟩
  · intro hb
    refine ⟨add_edge_oob (Or.inl hb), remove_edge_oob (Or.inl hb), ?_, ?_, ?_⟩
    · unfold Graph.degree
      rw [if_pos hb]
    · unfold Graph.neighbors
      rw [if_pos hb]
    · unfold Graph.reserve_neighbors
      rw [if_pos hb]
  · intro hu
    exact add_edge_loop hu hu rfl

/-- Witness for claim C7: out-of-range calls on a concrete graph. -/
theorem failing_calls_leave_graph_unchanged_witness :
    (Graph.mkSized 1).add_edge 5 0 = (some .outOfRange, Graph.mkSized 1) ∧
      (Graph.mkSized 1).remove_edge 5 0 = (some .outOfRange, Graph.mkSized 1) ∧
      (Graph.mkSized 1).degree 5 = .error .outOfRange ∧
      (Graph.mkSized 1).neighbors 5 = .error .outOfRange ∧
      (Graph.mkSized 1).reserve_neighbors 5 2 = (some .outOfRange, Graph.mkSized 1) :=
  (failing_calls_leave_graph_unchanged (Graph.mkSized 1) 5 0 2).2.2.2.1 (by decide)

/-- Claim C2: on a well-formed file (the read loop succeeds with raw pairs
`raw`), ingestion succeeds; the vertex count is the number of distinct
endpoint labels; the label table is strictly sorted and holds exactly the
labels appearing in the file, so `indexOf` assigns each distinct label its
rank in the sorted label set (smallest label gets id 0) and is injective on
labels; and the edges are exactly the distinct non-self-loop pairs after
renumbering. -/
theorem ingestion_renumbers_and_inserts (lines : List String) (raw : List (Nat × Nat))
    (h : collectRaw lines 0 = .ok raw) :
    ∃ g, Graph.fromLines lines = .ok g ∧
      g.num_vertices = (labelsOf raw).length ∧
      List.Pairwise (· < ·) (labelsOf raw) ∧
      (∀ x, x ∈ labelsOf raw ↔ x ∈ rawEndpoints raw) ∧
      (∀ a b, a ∈ labelsOf raw → b ∈ labelsOf raw →
        (labelsOf raw).indexOf a = (labelsOf raw).indexOf b → a = b) ∧
      (∀ i j, g.has_edge i j = true ↔
        ∃ p ∈ raw, (labelsOf raw).indexOf p.1 ≠ (labelsOf raw).indexOf p.2 ∧
          (((labelsOf raw).indexOf p.1 = i ∧ (labelsOf raw).indexOf p.2 = j) ∨
           ((labelsOf raw).indexOf p.1 = j ∧ (labelsOf raw).indexOf p.2 = i))) := by
  obtain ⟨g, h1, _, h3, h4⟩ := fromRaw_spec raw
  refine ⟨g, by rw [fromLines_eq_fromRaw h]; exact h1, h3, ?_, ?_, ?_, h4⟩
  · exact strictSorted_uniqueAdj (sorted_sortNat (rawEndpoints raw))
  · exact fun x => mem_labelsOf
  · exact fun a b ha hb hab => indexOf_inj ha hb hab

/-- Witness for claim C2 on the file "5 7", "5 5" (labels 5 and 7, one
self-loop pair dropped). -/
theorem ingestion_renumbers_and_inserts_witness :
    ∃ g, Graph.fromLines ["5 7", "5 5"] = .ok g ∧
      g.num_vertices = (labelsOf [(5, 7), (5, 5)]).length ∧
      List.Pairwise (· < ·) (labelsOf [(5, 7), (5, 5)]) ∧
      (∀ x, x ∈ labelsOf [(5, 7), (5, 5)] ↔ x ∈ rawEndpoints [(5, 7), (5, 5)]) ∧
      (∀ a b, a ∈ labelsOf [(5, 7), (5, 5)] → b ∈ labelsOf [(5, 7), (5, 5)] →
        (labelsOf [(5, 7), (5, 5)]).indexOf a = (labelsOf [(5, 7), (5, 5)]).indexOf b → a = b) ∧
      (∀ i j, g.has_edge i j = true ↔
        ∃ p ∈ [(5, 7), (5, 5)],
          (labelsOf [(5, 7), (5, 5)]).indexOf p.1 ≠ (labelsOf [(5, 7), (5, 5)]).indexOf p.2 ∧
          (((labelsOf [(5, 7), (5, 5)]).indexOf p.1 = i ∧
            (labelsOf [(5, 7), (5, 5)]).indexOf p.2 = j) ∨
           ((labelsOf [(5, 7), (5, 5)]).indexOf p.1 = j ∧
            (labelsOf [(5, 7), (5, 5)]).indexOf p.2 = i))) :=
  ingestion_renumbers_and_inserts ["5 7", "5 5"] [(5, 7), (5, 5)] (by rfl)

/-- Claim C4 counterexample: the line "1 2 3" does not have the
exactly-two-integers shape (it carries a third token), yet ingestion
succeeds, because `iss >> u_orig >> v_orig` (graph.cpp line 58) never
examines what follows the second integer.  The claim's "extra tokens beyond
two" case therefore does not fail. -/
theorem extra_tokens_accepted :
    classifyLine "1 2 3" = .edge 1 2 ∧
      Graph.fromLines ["1 2 3"] = .ok ⟨2, 1, [[1], [0]]⟩ :=
  ⟨by decide, by rfl⟩

/-- Claim C4 (amended): a non-blank, non-comment line fails ingestion
exactly when two unsigned integers cannot be extracted from it (fewer than
two tokens, a non-numeric token in the first two positions, or an
out-of-64-bit-range value); content after the second integer is ignored.
The error cites the 1-based number of the first such line. -/
theorem ingestion_fails_at_first_bad_line (pre post : List String) (bad : String)
    (hpre : ∀ l ∈ pre, classifyLine l ≠ .bad) (hbad : classifyLine bad = .bad) :
    Graph.fromLines (pre ++ bad :: post) = .error (.formatError (pre.length + 1)) := by
  have h := collectRaw_first_bad pre 0 bad post hpre hbad
  rw [show 0 + pre.length + 1 = pre.length + 1 by omega] at h
  exact fromLines_error h

/-- Witness for the amended claim C4: the single-token line "3" on line 2. -/
theorem ingestion_fails_at_first_bad_line_witness :
    Graph.fromLines ["0 1", "3"] = .error (.formatError 2) :=
  ingestion_fails_at_first_bad_line ["0 1"] [] "3" (by decide) (by decide)

/-- Claim C5: on an invariant-satisfying graph,
`get_all_connected_components` partitions `[0, vertex_count)`: the
concatenation of the components is a permutation of `range vertex_count`
(every vertex is in exactly one component), each component is nonempty and
sorted ascending, and components are ordered by their seed — the head of
each component — ascending. -/
theorem components_partition (g : Graph) (hWF : g.WF) :
    (g.get_all_connected_components.flatten).Perm (List.range g.num_vertices) ∧
    (∀ c ∈ g.get_all_connected_components, c ≠ [] ∧ List.Pairwise (· < ·) c) ∧
    List.Pairwise (fun c d => c.headD 0 < d.headD 0) g.get_all_connected_components := by
  have hunf : g.get_all_connected_components =
      collectComponents g (List.range g.num_vertices) [] := rfl
  obtain ⟨hperm, hcomps, hpair⟩ := collect_spec hWF (List.range g.num_vertices) []
    (fun a ha => List.mem_range.mp ha)
    (List.pairwise_lt_range g.num_vertices)
    (fun a _ x hx => Or.inl (List.mem_range.mpr (mem_componentOf.mp hx).1))
    (fun v hv => absurd hv (List.not_mem_nil v))
  rw [hunf]
  refine ⟨?_, ?_, hpair⟩
  · have hid : (List.range g.num_vertices).filter (notMem []) = List.range g.num_vertices :=
      List.filter_eq_self.mpr (fun a _ => by simp [notMem])
    refine hperm.trans ?_
    rw [hid]
  · intro c hc
    obtain ⟨s, hs1, _, hs3, _⟩ := hcomps c hc
    have hsn : s < g.num_vertices := List.mem_range.mp hs1
    constructor
    · rw [hs3]
      exact List.ne_nil_of_mem (self_mem_componentOf hsn)
    · rw [hs3]
      exact componentOf_sorted g s

/-- Witness for claim C5 on a concrete path-plus-isolated-vertex graph. -/
theorem components_partition_witness :
    ((⟨3, 1, [[1], [0], []]⟩ : Graph).get_all_connected_components.flatten).Perm
      (List.range 3) ∧
    (∀ c ∈ (⟨3, 1, [[1], [0], []]⟩ : Graph).get_all_connected_components,
      c ≠ [] ∧ List.Pairwise (· < ·) c) ∧
    List.Pairwise (fun c d => c.headD 0 < d.headD 0)
      (⟨3, 1, [[1], [0], []]⟩ : Graph).get_all_connected_components :=
  components_partition ⟨3, 1, [[1], [0], []]⟩ (by decide)

/-- Claim C8: on valid endpoints of an invariant-satisfying graph,
`remove_edge` exactly undoes a fresh `add_edge`; after `remove_edge(u, v)`
the edge is gone in both directions and both symmetric adjacency entries are
absent; the edge count decreases by exactly one when the edge existed; and
removal of an absent edge is a no-op. -/
theorem remove_edge_inverse (g : Graph) (u v : Nat) (hWF : g.WF)
    (hu : u < g.num_vertices) (hv : v < g.num_vertices) :
    (u ≠ v → g.has_edge u v = false → (((g.add_edge u v).2).remove_edge u v).2 = g) ∧
    ((g.remove_edge u v).2).has_edge u v = false ∧
    ((g.remove_edge u v).2).has_edge v u = false ∧
    (g.has_edge u v = true →
      ((g.remove_edge u v).2).num_edges + 1 = g.num_edges ∧
      v ∉ ((g.remove_edge u v).2).adj_list.getD u [] ∧
      u ∉ ((g.remove_edge u v).2).adj_list.getD v []) ∧
    (g.has_edge u v = false → g.remove_edge u v = (none, g)) := by
  obtain ⟨hlen, hirr, hsym, hnd, hcnt, hrng⟩ := hWF
  have hWF' : g.WF := ⟨hlen, hirr, hsym, hnd, hcnt, hrng⟩
  by_cases hd : g.has_edge u v
  case neg =>
    have hd' : g.has_edge u v = false := by simpa using hd
    have hvu : g.has_edge v u = false := by
      rw [has_edge_false_iff]
      intro hcon
      exact (has_edge_false_iff.mp hd') (hsym v hv u hu hcon)
    refine ⟨fun hne hnd0 => add_then_remove hWF' hu hv hne hnd0, ?_, ?_, ?_, ?_⟩
    · rw [remove_edge_absent hu hv hd']
      exact hd'
    · rw [remove_edge_absent hu hv hd']
      exact hvu
    · intro hcon
      rw [hcon] at hd'
      simp at hd'
    · exact fun _ => remove_edge_absent hu hv hd'
  case pos =>
    have hvin : v ∈ g.adj_list.getD u [] := has_edge_iff.mp hd
    have hne : u ≠ v := by
      intro hh
      subst hh
      exact hirr u hu hvin
    have huin : u ∈ g.adj_list.getD v [] := hsym u hu v hv hvin
    have hmem := remove_edge_found_mem hlen hu hv hne hd (hnd u hu) (hnd v hv) (g := g)
    refine ⟨fun hne' hnd0 => by rw [hnd0] at hd; simp at hd, ?_, ?_, ?_, ?_⟩
    · rw [has_edge_false_iff]
      intro hcon
      exact ((hmem u v).mp hcon).2.1 ⟨rfl, rfl⟩
    · rw [has_edge_false_iff]
      intro hcon
      exact ((hmem v u).mp hcon).2.2 ⟨rfl, rfl⟩
    · intro _
      refine ⟨?_, ?_, ?_⟩
      · have hne' : ((g.remove_edge u v).2).num_edges = g.num_edges - 1 := by
          rw [remove_edge_found hu hv hne hd]
        have h1 : 1 ≤ (g.adj_list.getD u []).length := List.length_pos.mpr (by
          intro hh
          rw [hh] at hvin
          exact List.not_mem_nil v hvin)
        have h2 : (g.adj_list.getD u []).length ≤ (g.adj_list.map List.length).sum :=
          getD_length_le_sum _ _ (by omega)
        omega
      · intro hcon
        exact ((hmem u v).mp hcon).2.1 ⟨rfl, rfl⟩
      · intro hcon
        exact ((hmem v u).mp hcon).2.2 ⟨rfl, rfl⟩
    · intro hcon
      rw [hcon] at hd
      simp at hd

/-- Witness for claim C8 on a concrete two-vertex graph with one edge. -/
theorem remove_edge_inverse_witness :
    (0 ≠ 1 → (⟨2, 1, [[1], [0]]⟩ : Graph).has_edge 0 1 = false →
      ((((⟨2, 1, [[1], [0]]⟩ : Graph).add_edge 0 1).2).remove_edge 0 1).2 =
        ⟨2, 1, [[1], [0]]⟩) ∧
    (((⟨2, 1, [[1], [0]]⟩ : Graph).remove_edge 0 1).2).has_edge 0 1 = false ∧
    (((⟨2, 1, [[1], [0]]⟩ : Graph).remove_edge 0 1).2).has_edge 1 0 = false ∧
    ((⟨2, 1, [[1], [0]]⟩ : Graph).has_edge 0 1 = true →
      ((((⟨2, 1, [[1], [0]]⟩ : Graph).remove_edge 0 1).2).num_edges + 1 = 1) ∧
      1 ∉ (((⟨2, 1, [[1], [0]]⟩ : Graph).remove_edge 0 1).2).adj_list.getD 0 [] ∧
      0 ∉ (((⟨2, 1, [[1], [0]]⟩ : Graph).remove_edge 0 1).2).adj_list.getD 1 []) ∧
    ((⟨2, 1, [[1], [0]]⟩ : Graph).has_edge 0 1 = false →
      (⟨2, 1, [[1], [0]]⟩ : Graph).remove_edge 0 1 = (none, ⟨2, 1, [[1], [0]]⟩)) :=
  remove_edge_inverse ⟨2, 1, [[1], [0]]⟩ 0 1 (by decide) (by decide) (by decide)

/-- Claim C9: the RNG is deterministic per worker.  Construction from a
master seed is a pure function of the seed and the thread count, so two
instances built from the same pair coincide on every worker's generator
state and hence on every worker's draw sequence; and `reseed(s)` puts the
RNG in exactly the state of a freshly constructed instance with master seed
`s` and the same thread count — both derive worker `i`'s seed as the `i`-th
output of a seeding engine seeded with `s`, and the member `seed` call
installs the same state as engine construction. -/
theorem rng_reseed_equals_fresh (t s s0 i k : Nat) :
    (RNG.mkSeeded t s0).reseed s = RNG.mkSeeded t s ∧
    drawSeq (((RNG.mkSeeded t s0).reseed s).generators.getD i (mtInit 0)) k =
      drawSeq ((RNG.mkSeeded t s).generators.getD i (mtInit 0)) k := by
  have hg := reseed_generators t s s0
  have h1 : (RNG.mkSeeded t s0).reseed s =
      RNG.mk (((RNG.mkSeeded t s0).reseed s).generators) (u64 s) t := rfl
  have h2 : RNG.mkSeeded t s = RNG.mk ((RNG.mkSeeded t s).generators) (u64 s) t := rfl
  constructor
  · rw [h1, h2, hg]
  · rw [hg]

/-- Claim C10: a file whose parseable lines are all label self-loops (plus
blanks and comments) ingests successfully into a graph with one vertex per
distinct label and zero edges; the empty graph (vertex count 0) arises only
when the file contains no parseable edge line at all — never merely because
every read pair was dropped as a self-loop. -/
theorem selfloop_lines_make_isolated_vertices (lines : List String)
    (hall : ∀ l ∈ lines, classifyLine l = .skip ∨ ∃ u, classifyLine l = .edge u u) :
    ∃ raw g, collectRaw lines 0 = .ok raw ∧ Graph.fromLines lines = .ok g ∧
      g.num_edges = 0 ∧ g.num_vertices = (labelsOf raw).length ∧
      (g.num_vertices = 0 ↔ raw = []) ∧
      (∀ (lines' : List String) (raw' : List (Nat × Nat)) (g' : Graph),
        collectRaw lines' 0 = .ok raw' → Graph.fromLines lines' = .ok g' →
        (g'.num_vertices = 0 ↔ raw' = [])) := by
  obtain ⟨raw, hraw, hself⟩ := collectRaw_selfloops hall 0
  cases raw with
  | nil =>
    refine ⟨[], Graph.empty, hraw, ?_, rfl, rfl, by simp [Graph.empty], ?_⟩
    · rw [fromLines_eq_fromRaw hraw]
      rfl
    · exact fun lines' raw' g' hc hl => fromLines_nv_zero_iff hc hl
  | cons q qs =>
    have hidx : ∀ p ∈ q :: qs,
        (labelsOf (q :: qs)).indexOf p.1 = (labelsOf (q :: qs)).indexOf p.2 := by
      intro p hp
      rw [hself p hp]
    have hfr : Graph.fromRaw (q :: qs) =
        .ok (Graph.mkSized (labelsOf (q :: qs)).length) := by
      rw [Graph.fromRaw]
      exact insertAll_all_loops (labelsOf (q :: qs)) (q :: qs)
        (Graph.mkSized (labelsOf (q :: qs)).length) hidx
    have hfl : Graph.fromLines lines = .ok (Graph.mkSized (labelsOf (q :: qs)).length) := by
      rw [fromLines_eq_fromRaw hraw]
      exact hfr
    refine ⟨q :: qs, Graph.mkSized (labelsOf (q :: qs)).length, hraw, hfl, rfl, rfl, ?_, ?_⟩
    · exact fromLines_nv_zero_iff hraw hfl
    · exact fun lines' raw' g' hc hl => fromLines_nv_zero_iff hc hl

/-- Witness for claim C10 on the file containing only "5 5". -/
theorem selfloop_lines_make_isolated_vertices_witness :
    ∃ raw g, collectRaw ["5 5"] 0 = .ok raw ∧ Graph.fromLines ["5 5"] = .ok g ∧
      g.num_edges = 0 ∧ g.num_vertices = (labelsOf raw).length ∧
      (g.num_vertices = 0 ↔ raw = []) ∧
      (∀ (lines' : List String) (raw' : List (Nat × Nat)) (g' : Graph),
        collectRaw lines' 0 = .ok raw' → Graph.fromLines lines' = .ok g' →
        (g'.num_vertices = 0 ↔ raw' = [])) :=
  selfloop_lines_make_isolated_vertices ["5 5"] (by
    intro l hl
    rw [List.mem_singleton] at hl
    subst hl
    exact Or.inr ⟨5, by decide⟩)

end R3DP
